import Mathlib

/-!
# lab0-c `queue.c`: a circular doubly-linked queue with a sentinel

Shallow embedding of `src/queue.c`.

* A pointer is a natural number, `0` is `NULL`.
* The heap holds the two link fields of every `struct list_head`, the string
  owned by every `element_t`, and the list of blocks handed out by `malloc`
  and not yet freed.  An `element_t` is identified with the `list_head`
  embedded in it (`list_entry` is the identity), so memory layout is not
  modelled; every dereference is a total lookup.
* `malloc` and `strdup` are oracles: the block (or `0`) that `malloc` hands
  out and whether `strdup` succeeds are arguments of the operation.
* A C string is the list of its bytes before the terminating NUL.
* `int` arithmetic wraps at 32 bits and `size_t` arithmetic at 64 bits.
* Loops take a fuel argument and return `none` when it runs out.
* `list.h` and `queue.h` are not part of the sources at hand: the list
  primitives are modelled from the specification.
-/

namespace Queue

/-- An address; `0` is `NULL`. -/
abbrev Ptr := Nat

/-- The bytes of a C string, terminator excluded. -/
abbrev Str := List Nat

/-- A caller buffer, as the byte stored at each offset from its start. -/
abbrev Buf := Nat → Nat

/-- Heap state: link fields, element values and the live `malloc` blocks. -/
structure Heap where
  next : Ptr → Ptr
  prev : Ptr → Ptr
  value : Ptr → Str
  live : List Ptr

/-- Pointwise store into one field. -/
def upd {α : Type} (f : Ptr → α) (p : Ptr) (v : α) : Ptr → α :=
  fun q => if q = p then v else f q

/-- The store `p->next = v`. -/
def Heap.setNext (h : Heap) (p v : Ptr) : Heap := { h with next := upd h.next p v }

/-- The store `p->prev = v`. -/
def Heap.setPrev (h : Heap) (p v : Ptr) : Heap := { h with prev := upd h.prev p v }

/-- The store `p->value = s` (the string `strdup` produced). -/
def Heap.setValue (h : Heap) (p : Ptr) (s : Str) : Heap := { h with value := upd h.value p s }

/-- A successful `malloc` handing out block `p`. -/
def Heap.malloc (h : Heap) (p : Ptr) : Heap := { h with live := p :: h.live }

/-- The call `free(p)`. -/
def Heap.free (h : Heap) (p : Ptr) : Heap := { h with live := h.live.filter (fun q => q ≠ p) }

/-! ## `list.h` primitives -/

/-- Modelled from the spec: `INIT_LIST_HEAD` of `list.h` is not under `src/`;
an empty queue is a sentinel whose `next` and `prev` point to itself. -/
def INIT_LIST_HEAD (h : Heap) (head : Ptr) : Heap :=
  (h.setNext head head).setPrev head head

/-- Modelled from the spec: `list_empty` of `list.h` is not under `src/`;
a queue is empty iff the sentinel's `next` points to itself. -/
def list_empty (h : Heap) (head : Ptr) : Bool := decide (h.next head = head)

/-- Modelled from the spec: `list_add` of `list.h` is not under `src/`;
it links `node` as the new first element, right after the sentinel. -/
def list_add (h : Heap) (node head : Ptr) : Heap :=
  let next := h.next head
  let h1 := h.setPrev next node
  let h2 := h1.setNext node next
  let h3 := h2.setPrev node head
  h3.setNext head node

/-- Modelled from the spec: `list_add_tail` of `list.h` is not under `src/`;
it links `node` as the new last element, right before the sentinel. -/
def list_add_tail (h : Heap) (node head : Ptr) : Heap :=
  let prev := h.prev head
  let h1 := h.setNext prev node
  let h2 := h1.setNext node head
  let h3 := h2.setPrev node prev
  h3.setPrev head node

/-- Modelled from the spec: `list_del` of `list.h` is not under `src/`;
it unlinks `node` by making its two neighbours point to each other. -/
def list_del (h : Heap) (node : Ptr) : Heap :=
  let next := h.next node
  let prev := h.prev node
  let h1 := h.setPrev next prev
  h1.setNext prev next

/-- Modelled from the spec: `list_first_entry` of `list.h` is not under `src/`;
the first element is the one the sentinel's `next` points to. -/
def list_first_entry (h : Heap) (head : Ptr) : Ptr := h.next head

/-- Modelled from the spec: `list_last_entry` of `list.h` is not under `src/`;
the last element is the one the sentinel's `prev` points to. -/
def list_last_entry (h : Heap) (head : Ptr) : Ptr := h.prev head

/-! ## `queue.c`

`list_for_each` of `list.h` (not under `src/`) is the loop that starts at the
sentinel's `next` and follows `next` until it is back at the sentinel. -/

/-- `q_new`: `p` is what `malloc` returns (`0` on failure). -/
def q_new (h : Heap) (p : Ptr) : Ptr × Heap :=
  if p ≠ 0 then (p, INIT_LIST_HEAD (h.malloc p) p) else (p, h)

/-- `q_release_element`: frees the value and the element. -/
def q_release_element (h : Heap) (e : Ptr) : Heap := h.free e

/-- `new_element`: `p` is what `malloc` returns, `dup` whether `strdup` succeeds. -/
def new_element (h : Heap) (s : Str) (p : Ptr) (dup : Bool) : Ptr × Heap :=
  if p = 0 then (0, h)
  else
    let h1 := h.malloc p
    if dup = false then (0, h1.free p)
    else (p, h1.setValue p s)

/-- `q_insert_head`. -/
def q_insert_head (h : Heap) (head : Ptr) (s : Str) (p : Ptr) (dup : Bool) : Bool × Heap :=
  if head = 0 then (false, h)
  else
    let r := new_element h s p dup
    if r.1 = 0 then (false, r.2)
    else (true, list_add r.2 r.1 head)

/-- `q_insert_tail`. -/
def q_insert_tail (h : Heap) (head : Ptr) (s : Str) (p : Ptr) (dup : Bool) : Bool × Heap :=
  if head = 0 then (false, h)
  else
    let r := new_element h s p dup
    if r.1 = 0 then (false, r.2)
    else (true, list_add_tail r.2 r.1 head)

/-- The width of `size_t`. -/
def SIZE_BITS : Nat := 64

/-- The `size_t` expression `bufsize - 1`. -/
def sizePred (bufsize : Nat) : Nat := (bufsize + 2 ^ SIZE_BITS - 1) % 2 ^ SIZE_BITS

/-- `strncpy(dst, src, n)`: the first `n` bytes of `dst` become the bytes of
`src`, padded with NUL. -/
def strncpy (dst : Buf) (src : Str) (n : Nat) : Buf :=
  fun i => if i < n then src.getD i 0 else dst i

/-- The two statements under `if (sp)`: the truncating copy and the terminator.
The buffer has no capacity here, so this is what the code does when `sp` is
`NULL` or `1 ≤ bufsize`; with a buffer and `bufsize = 0` the code hands
`SIZE_MAX` to `strncpy`, which runs off the buffer, and the call does not
return: statements about the outcome of a removal carry the side condition
`sp = none ∨ 1 ≤ bufsize`. -/
def copyOut (sp : Option Buf) (v : Str) (bufsize : Nat) : Option Buf :=
  sp.map (fun buf => upd (strncpy buf v (sizePred bufsize)) (sizePred bufsize) 0)

/-- `q_remove_head`: returns the node (`0` for `NULL`), the heap and the buffer. -/
def q_remove_head (h : Heap) (head : Ptr) (sp : Option Buf) (bufsize : Nat) :
    Ptr × Heap × Option Buf :=
  if head = 0 ∨ list_empty h head = true then (0, h, sp)
  else
    let node := list_first_entry h head
    if node = 0 then (0, h, sp)
    else
      let h1 := list_del h (h.next head)
      (node, h1, copyOut sp (h1.value node) bufsize)

/-- `q_remove_tail`. -/
def q_remove_tail (h : Heap) (head : Ptr) (sp : Option Buf) (bufsize : Nat) :
    Ptr × Heap × Option Buf :=
  if head = 0 ∨ list_empty h head = true then (0, h, sp)
  else
    let node := list_last_entry h head
    if node = 0 then (0, h, sp)
    else
      let h1 := list_del h (h.prev head)
      (node, h1, copyOut sp (h1.value node) bufsize)

/-- Wrap-around of a C `int` (32 bits, two's complement). -/
def wrapInt (x : Int) : Int := (x + 2 ^ 31) % 2 ^ 32 - 2 ^ 31

/-- The `list_for_each` loop of `q_size`, `n` the cursor and `count` the counter. -/
def q_size_loop (h : Heap) (head : Ptr) : Nat → Ptr → Int → Option Int
  | 0, _, _ => none
  | fuel + 1, n, count =>
    if n ≠ head then q_size_loop h head fuel (h.next n) (wrapInt (count + 1))
    else some count

/-- `q_size`. -/
def q_size (h : Heap) (head : Ptr) (fuel : Nat) : Option Int :=
  if head ≠ 0 then q_size_loop h head fuel (h.next head) 0 else some 0

/-- The two-pointer `for` loop of `q_delete_mid`; returns the final `ptr`. -/
def q_delete_mid_loop (h : Heap) : Nat → Ptr → Ptr → Option Ptr
  | 0, _, _ => none
  | fuel + 1, ptr, prev =>
    if prev ≠ ptr ∧ prev ≠ h.next ptr then q_delete_mid_loop h fuel (h.next ptr) (h.prev prev)
    else some ptr

/-- `q_delete_mid`. -/
def q_delete_mid (h : Heap) (head : Ptr) (fuel : Nat) : Option (Bool × Heap) :=
  if head = 0 ∨ list_empty h head = true ∨ h.next head = 0 then some (false, h)
  else
    match q_delete_mid_loop h fuel (h.next head) (h.prev head) with
    | none => none
    | some ptr => some (true, q_release_element (list_del h ptr) ptr)

/-- `q_delete_dup`: the body is `return true;`. -/
def q_delete_dup (h : Heap) (_head : Ptr) : Bool × Heap := (true, h)

/-- The six stores of one iteration of the `while` loop of `q_swap`. -/
def q_swap_body (h : Heap) (first second : Ptr) : Heap :=
  let h1 := h.setNext (h.prev first) second
  let h2 := h1.setPrev (h1.next second) first
  let h3 := h2.setNext first (h2.next second)
  let h4 := h3.setPrev second (h3.prev first)
  let h5 := h4.setPrev first second
  h5.setNext second first

/-- The `while` loop of `q_swap`. -/
def q_swap_loop (head : Ptr) : Nat → Heap → Ptr → Ptr → Option Heap
  | 0, _, _, _ => none
  | fuel + 1, h, first, second =>
    if first ≠ head ∧ second ≠ head then
      let h1 := q_swap_body h first second
      let first1 := h1.next first
      q_swap_loop head fuel h1 first1 (h1.next first1)
    else some h

/-- `q_swap`. -/
def q_swap (h : Heap) (head : Ptr) (fuel : Nat) : Option Heap :=
  if head = 0 ∨ h.next head = h.prev head then some h
  else q_swap_loop head fuel h (h.next head) (h.next (h.next head))

/-- `q_reverse`: the body is empty. -/
def q_reverse (h : Heap) (_head : Ptr) : Heap := h

/-- `q_sort`: the body is empty. -/
def q_sort (h : Heap) (_head : Ptr) : Heap := h

/-! ## Traversals and the link invariant -/

/-- Follow `f` from `n` until `head` is reached, collecting the nodes visited. -/
def walk (f : Ptr → Ptr) (head : Ptr) : Nat → Ptr → Option (List Ptr)
  | 0, _ => none
  | fuel + 1, n =>
    if n = head then some [] else (walk f head fuel (f n)).map (fun l => n :: l)

/-- Forward traversal: follow `next` from the sentinel back to the sentinel. -/
def forward (h : Heap) (head : Ptr) (fuel : Nat) : Option (List Ptr) :=
  walk h.next head fuel (h.next head)

/-- Backward traversal: follow `prev` from the sentinel back to the sentinel. -/
def backward (h : Heap) (head : Ptr) (fuel : Nat) : Option (List Ptr) :=
  walk h.prev head fuel (h.prev head)

/-- `Path f a X c`: following `f` from `a` visits exactly the nodes of `X`, in
order, and then arrives at `c`. -/
def Path (f : Ptr → Ptr) : Ptr → List Ptr → Ptr → Prop
  | a, [], c => f a = c
  | a, x :: xs, c => f a = x ∧ Path f x xs c

instance Path.instDecidable (f : Ptr → Ptr) : (a : Ptr) → (X : List Ptr) → (c : Ptr) →
    Decidable (Path f a X c)
  | a, [], c => inferInstanceAs (Decidable (f a = c))
  | a, x :: xs, c =>
    have := Path.instDecidable f x xs c
    inferInstanceAs (Decidable (f a = x ∧ Path f x xs c))

/-- `IsQueue h head L`: `head` is the sentinel of a well-formed queue whose
payload nodes are, in forward order, `L`: the sentinel is not `NULL`, no node
is `NULL` or occurs twice, `next` leads from the sentinel through `L` back to
the sentinel, `prev` does the same through the reverse of `L`, and all the
nodes are live blocks. -/
def IsQueue (h : Heap) (head : Ptr) (L : List Ptr) : Prop :=
  head ≠ 0 ∧ 0 ∉ L ∧ (head :: L).Nodup ∧
  Path h.next head L head ∧ Path h.prev head L.reverse head ∧
  ∀ x ∈ head :: L, x ∈ h.live

instance IsQueue.instDecidable (h : Heap) (head : Ptr) (L : List Ptr) :
    Decidable (IsQueue h head L) := by
  unfold IsQueue; infer_instance

/-- The link invariant: some list of payload nodes makes `head` a queue. -/
def WellFormed (h : Heap) (head : Ptr) : Prop := ∃ L, IsQueue h head L

/-- The last node of `a :: X`. -/
def lastOf : Ptr → List Ptr → Ptr
  | a, [] => a
  | _, x :: xs => lastOf x xs

/-- The first node of `X ++ [c]`. -/
def firstOf : List Ptr → Ptr → Ptr
  | [], c => c
  | x :: _, _ => x

/-- The heap in which nothing has been allocated. -/
def emptyHeap : Heap := ⟨fun _ => 0, fun _ => 0, fun _ => [], []⟩

/-- Build a queue at sentinel `1` holding `vs`, by `q_new` and one
`q_insert_tail` per value, `malloc` handing out blocks `2, 3, ...`. -/
def build (vs : List Str) : Heap :=
  (vs.foldl (fun (st : Heap × Ptr) v => ((q_insert_tail st.1 1 v st.2 true).2, st.2 + 1))
    ((q_new emptyHeap 1).2, 2)).1

/-- The values carried by the nodes of the forward traversal. -/
def contents (h : Heap) (head : Ptr) (fuel : Nat) : Option (List Str) :=
  (forward h head fuel).map (fun l => l.map h.value)

/-! ## The reference double-ended queue and runs of calls -/

/-- Reference model, push-front. -/
def Deque.push_front (d : List Str) (v : Str) : List Str := v :: d

/-- Reference model, push-back. -/
def Deque.push_back (d : List Str) (v : Str) : List Str := d ++ [v]

/-- Reference model, pop-front: the value popped and what remains. -/
def Deque.pop_front : List Str → Option (Str × List Str)
  | [] => none
  | v :: d => some (v, d)

/-- Reference model, pop-back: the value popped and what remains. -/
def Deque.pop_back (d : List Str) : Option (Str × List Str) :=
  match d.getLast? with
  | none => none
  | some v => some (v, d.dropLast)

/-- One call of an end operation, with what the environment supplies: the
block `malloc` hands out and whether `strdup` succeeds, or the output buffer. -/
inductive Call where
  | insert_head (s : Str) (p : Ptr) (dup : Bool)
  | insert_tail (s : Str) (p : Ptr) (dup : Bool)
  | remove_head (sp : Option Buf) (bufsize : Nat)
  | remove_tail (sp : Option Buf) (bufsize : Nat)

/-- Outcome of a run on the heap: the final heap, the values carried by the
nodes the removals returned, and whether every call was successful (insertions
returned `true` on a block that was not live, removals returned a node). -/
structure Run where
  heap : Heap
  outs : List Str
  ok : Bool

/-- Run a sequence of calls on the queue at `head`. -/
def runCalls (head : Ptr) : Heap → List Call → Run
  | h, [] => ⟨h, [], true⟩
  | h, Call.insert_head s p dup :: cs =>
    let res := q_insert_head h head s p dup
    let r := runCalls head res.2 cs
    ⟨r.heap, r.outs, decide (p ∉ h.live) && res.1 && r.ok⟩
  | h, Call.insert_tail s p dup :: cs =>
    let res := q_insert_tail h head s p dup
    let r := runCalls head res.2 cs
    ⟨r.heap, r.outs, decide (p ∉ h.live) && res.1 && r.ok⟩
  | h, Call.remove_head sp n :: cs =>
    let res := q_remove_head h head sp n
    let r := runCalls head res.2.1 cs
    ⟨r.heap, res.2.1.value res.1 :: r.outs, decide (res.1 ≠ 0) && r.ok⟩
  | h, Call.remove_tail sp n :: cs =>
    let res := q_remove_tail h head sp n
    let r := runCalls head res.2.1 cs
    ⟨r.heap, res.2.1.value res.1 :: r.outs, decide (res.1 ≠ 0) && r.ok⟩

/-- Outcome of a run on the reference model. -/
structure RefRun where
  content : List Str
  outs : List Str
  ok : Bool

/-- Run the same sequence of calls on the reference deque. -/
def refRun : List Str → List Call → RefRun
  | d, [] => ⟨d, [], true⟩
  | d, Call.insert_head s _ _ :: cs => refRun (Deque.push_front d s) cs
  | d, Call.insert_tail s _ _ :: cs => refRun (Deque.push_back d s) cs
  | d, Call.remove_head _ _ :: cs =>
    match Deque.pop_front d with
    | none => ⟨d, [], false⟩
    | some (v, d1) => let r := refRun d1 cs; ⟨r.content, v :: r.outs, r.ok⟩
  | d, Call.remove_tail _ _ :: cs =>
    match Deque.pop_back d with
    | none => ⟨d, [], false⟩
    | some (v, d1) => let r := refRun d1 cs; ⟨r.content, v :: r.outs, r.ok⟩

/-- Whether a call is an insertion. -/
def Call.isInsert : Call → Bool
  | Call.insert_head _ _ _ => true
  | Call.insert_tail _ _ _ => true
  | _ => false

/-- The number of insertions in a sequence of calls. -/
def inserts (cs : List Call) : Nat := (cs.filter Call.isInsert).length

/-- The number of removals in a sequence of calls. -/
def removes (cs : List Call) : Nat := (cs.filter (fun c => !c.isInsert)).length

/-- The node at zero-based index `i` of `L`, and `c` beyond its end. -/
def nth : List Ptr → Nat → Ptr → Ptr
  | [], _, c => c
  | x :: _, 0, _ => x
  | _ :: xs, i + 1, c => nth xs i c

/-- Exchange the two nodes of every adjacent pair, an odd last node staying. -/
def swapPairs : List Ptr → List Ptr
  | a :: b :: rest => b :: a :: swapPairs rest
  | l => l

/-- A queue of `N` payload nodes laid out in a row: the sentinel is block `1`,
the payload nodes are blocks `2, ..., N + 1` in forward order. -/
def rowHeap (N : Nat) : Heap where
  next := fun p => if p = N + 1 then 1 else p + 1
  prev := fun p => if p = 1 then N + 1 else p - 1
  value := fun _ => []
  live := List.range' 1 (N + 1)

/-- A sample run: two insertions, a removal at the tail, one more insertion
and a removal at the head. -/
def sampleCalls : List Call :=
  [Call.insert_tail [97] 2 true, Call.insert_head [98] 3 true, Call.remove_tail none 0,
    Call.insert_tail [99] 4 true, Call.remove_head none 0]

/-- A sample queue holding "a", "b", "c" in nodes `2, 3, 4` behind sentinel `1`. -/
def sampleQueue : Heap := build [[97], [98], [99]]

/-- The queue "3", "1", "2", "1" (nodes `2, 3, 4, 5`, sentinel `1`). -/
def unsortedQueue : Heap := build [[51], [49], [50], [49]]

/-- The queue "1", "2", "3", "4" (nodes `2, ..., 5`, sentinel `1`). -/
def fourQueue : Heap := build [[49], [50], [51], [52]]

/-- The queue "1", ..., "6" (nodes `2, ..., 7`, sentinel `1`). -/
def sixQueue : Heap := build [[49], [50], [51], [52], [53], [54]]

/-- The sorted queue "1", "1", "2", "3", "3", "3", "4" (nodes `2, ..., 8`). -/
def dupQueue : Heap := build [[49], [49], [50], [51], [51], [51], [52]]

/-- The queue "1", ..., "5" (nodes `2, ..., 6`, sentinel `1`). -/
def fiveQueue : Heap := build [[49], [50], [51], [52], [53]]

/-- Two successful insertions and no removal. -/
def twoInserts : List Call := [Call.insert_tail [97] 2 true, Call.insert_head [98] 3 true]

/-- Two successful insertions, then both elements removed. -/
def fillAndDrain : List Call :=
  [Call.insert_tail [97] 2 true, Call.insert_head [98] 3 true, Call.remove_tail none 0,
    Call.remove_tail none 0]

/-- Read a buffer as a NUL-terminated string starting at offset `i`: the bytes
before the first NUL byte. -/
def cstring (buf : Buf) : Nat → Nat → Option Str
  | 0, _ => none
  | fuel + 1, i =>
    if buf i = 0 then some [] else (cstring buf fuel (i + 1)).map (fun l => buf i :: l)

/-- The pairs `(ptr, prev)` on which the condition of the `for` loop of
`q_delete_mid` is tested, in order; the last pair is the one the loop stops on. -/
def q_delete_mid_states (h : Heap) : Nat → Ptr → Ptr → Option (List (Ptr × Ptr))
  | 0, _, _ => none
  | fuel + 1, ptr, prev =>
    if prev ≠ ptr ∧ prev ≠ h.next ptr then
      (q_delete_mid_states h fuel (h.next ptr) (h.prev prev)).map (fun l => (ptr, prev) :: l)
    else some [(ptr, prev)]

/-- A caller buffer holding the byte 255 at every offset. -/
def dirtyBuf : Buf := fun _ => 255

/-- The queue "hello", "hi" (nodes `2, 3`, sentinel `1`). -/
def wordQueue : Heap := build [[104, 101, 108, 108, 111], [104, 105]]

/-! ## Basic facts about stores and paths -/

@[simp]
theorem upd_same {α : Type} (f : Ptr → α) (p : Ptr) (v : α) : upd f p v p = v := by
  simp [upd]

theorem upd_ne {α : Type} (f : Ptr → α) {p q : Ptr} (v : α) (hne : q ≠ p) :
    upd f p v q = f q := by
  simp [upd, hne]

theorem lastOf_mem (X : List Ptr) : ∀ a, lastOf a X ∈ a :: X := by
  induction X with
  | nil => intro a; simp [lastOf]
  | cons x xs ih => intro a; simp only [lastOf]; exact List.mem_cons_of_mem _ (ih x)

theorem lastOf_append (X : List Ptr) (m : Ptr) (Y : List Ptr) :
    ∀ a, lastOf a (X ++ m :: Y) = lastOf m Y := by
  induction X with
  | nil => intro a; simp [lastOf]
  | cons x xs ih => intro a; simpa [lastOf] using ih x

theorem firstOf_append (X Y : List Ptr) (c : Ptr) :
    firstOf (X ++ Y) c = firstOf X (firstOf Y c) := by
  cases X with
  | nil => simp [firstOf]
  | cons x xs => simp [firstOf]

theorem firstOf_reverse (X : List Ptr) : ∀ c, firstOf X.reverse c = lastOf c X := by
  induction X with
  | nil => intro c; simp [firstOf, lastOf]
  | cons x xs ih =>
    intro c
    rw [List.reverse_cons, firstOf_append, ih]
    simp [firstOf, lastOf]

theorem lastOf_reverse (X : List Ptr) (c : Ptr) : lastOf c X.reverse = firstOf X c := by
  have := firstOf_reverse X.reverse c
  simpa using this.symm

theorem firstOf_mem (X : List Ptr) (c : Ptr) : firstOf X c ∈ c :: X := by
  cases X with
  | nil => simp [firstOf]
  | cons x xs => simp [firstOf]

theorem Path.append {f : Ptr → Ptr} (m : Ptr) (Y : List Ptr) (c : Ptr) :
    ∀ (X : List Ptr) (a : Ptr), Path f a (X ++ m :: Y) c ↔ Path f a X m ∧ Path f m Y c := by
  intro X
  induction X with
  | nil => intro a; simp [Path]
  | cons x xs ih => intro a; simp [Path, ih x, and_assoc]

theorem Path.congr {f g : Ptr → Ptr} (c : Ptr) :
    ∀ (X : List Ptr) (a : Ptr), (∀ x ∈ a :: X, g x = f x) → Path f a X c → Path g a X c := by
  intro X
  induction X with
  | nil =>
    intro a hfg hp
    simp only [Path] at hp ⊢
    rw [hfg a (by simp)]; exact hp
  | cons x xs ih =>
    intro a hfg hp
    simp only [Path] at hp ⊢
    refine ⟨by rw [hfg a (by simp)]; exact hp.1, ih x ?_ hp.2⟩
    intro y hy
    exact hfg y (List.mem_cons_of_mem _ hy)

theorem Path.first {f : Ptr → Ptr} {a c : Ptr} {X : List Ptr} (hp : Path f a X c) :
    f a = firstOf X c := by
  cases X with
  | nil => simpa [Path, firstOf] using hp
  | cons x xs => simpa [firstOf] using hp.1

theorem Path.last {f : Ptr → Ptr} {c : Ptr} :
    ∀ (X : List Ptr) (a : Ptr), Path f a X c → f (lastOf a X) = c := by
  intro X
  induction X with
  | nil => intro a hp; simpa [Path, lastOf] using hp
  | cons x xs ih => intro a hp; simpa [lastOf] using ih x hp.2

/-- Replace the stretch `M` of a path by `M'`: the links of the nodes before
the last one of `a :: X` and of the nodes of `Y` are kept, and the new links
lead from the last node of `a :: X` through `M'` to the first node of
`Y ++ [c]`. -/
theorem Path.splice {f g : Ptr → Ptr} (M M' Y : List Ptr) (c : Ptr) :
    ∀ (X : List Ptr) (a : Ptr), (a :: X).Nodup →
      (∀ x ∈ a :: X, x ≠ lastOf a X → g x = f x) →
      (∀ y ∈ Y, g y = f y) →
      Path g (lastOf a X) M' (firstOf Y c) →
      Path f a (X ++ (M ++ Y)) c → Path g a (X ++ (M' ++ Y)) c := by
  intro X
  induction X with
  | nil =>
    intro a _ _ hY hnew hold
    simp only [lastOf, List.nil_append] at hnew hold ⊢
    cases Y with
    | nil => simpa [firstOf] using hnew
    | cons b Y' =>
      rw [Path.append]
      refine ⟨by simpa [firstOf] using hnew, ?_⟩
      have h2 := ((Path.append b Y' c M a).1 hold).2
      exact Path.congr c Y' b hY h2
  | cons x xs ih =>
    intro a hnd hX hY hnew hold
    simp only [List.cons_append, Path, lastOf] at hnew hold ⊢
    have hnd' : (x :: xs).Nodup := (List.nodup_cons.1 hnd).2
    have hax : a ≠ lastOf x xs := by
      intro heq
      exact (List.nodup_cons.1 hnd).1 (heq ▸ lastOf_mem xs x)
    refine ⟨by rw [hX a (by simp) (by simpa [lastOf] using hax)]; exact hold.1, ?_⟩
    apply ih x hnd' ?_ hY hnew hold.2
    intro y hy hne
    exact hX y (List.mem_cons_of_mem _ hy) (by simpa [lastOf] using hne)

theorem walk_of_path {f : Ptr → Ptr} {head : Ptr} :
    ∀ (X : List Ptr) (a : Ptr) (fuel : Nat), Path f a X head → head ∉ X → X.length < fuel →
      walk f head fuel (f a) = some X := by
  intro X
  induction X with
  | nil =>
    intro a fuel hp _ hlt
    obtain ⟨k, rfl⟩ : ∃ k, fuel = k + 1 := ⟨fuel - 1, by simp at hlt; omega⟩
    simp only [Path] at hp
    simp [walk, hp]
  | cons x xs ih =>
    intro a fuel hp hmem hlt
    obtain ⟨k, rfl⟩ : ∃ k, fuel = k + 1 := ⟨fuel - 1, by simp at hlt; omega⟩
    simp only [Path] at hp
    have hx : x ≠ head := fun e => hmem (by simp [e])
    have hrec := ih x k hp.2 (fun e => hmem (List.mem_cons_of_mem _ e))
      (by simp at hlt; omega)
    simp [walk, hp.1, hx, hrec]

/-! ## Rewiring a well-formed queue -/

theorem IsQueue.forward_eq {h : Heap} {head : Ptr} {L : List Ptr} (hq : IsQueue h head L)
    {fuel : Nat} (hf : L.length < fuel) : forward h head fuel = some L := by
  obtain ⟨_, _, hnd, hn, _, _⟩ := hq
  exact walk_of_path L head fuel hn (List.nodup_cons.1 hnd).1 hf

theorem IsQueue.backward_eq {h : Heap} {head : Ptr} {L : List Ptr} (hq : IsQueue h head L)
    {fuel : Nat} (hf : L.length < fuel) : backward h head fuel = some L.reverse := by
  obtain ⟨_, _, hnd, _, hp, _⟩ := hq
  exact walk_of_path L.reverse head fuel hp (by simpa using (List.nodup_cons.1 hnd).1)
    (by simpa using hf)

/-- The forward order determines the list of payload nodes. -/
theorem IsQueue.unique {h : Heap} {head : Ptr} {L L' : List Ptr} (hq : IsQueue h head L)
    (hq' : IsQueue h head L') : L = L' := by
  have h1 := hq.forward_eq (Nat.lt_succ_of_le (Nat.le_max_left L.length L'.length))
  have h2 := hq'.forward_eq (Nat.lt_succ_of_le (Nat.le_max_right L.length L'.length))
  rw [h1] at h2
  exact Option.some.inj h2

/-- Replace the stretch `M` of the queue by `M'`, given what the new heap
stores in the link fields. -/
theorem IsQueue.replace_stretch {h : Heap} (h' : Heap) {head : Ptr} (A M M' B : List Ptr)
    (hq : IsQueue h head (A ++ (M ++ B)))
    (hnd : (head :: (A ++ (M' ++ B))).Nodup) (h0 : 0 ∉ M')
    (hlive : ∀ x ∈ head :: (A ++ (M' ++ B)), x ∈ h'.live)
    (hn1 : ∀ x ∈ head :: A, x ≠ lastOf head A → h'.next x = h.next x)
    (hn2 : ∀ x ∈ B, h'.next x = h.next x)
    (hn3 : Path h'.next (lastOf head A) M' (firstOf B head))
    (hp1 : ∀ x ∈ head :: B, x ≠ firstOf B head → h'.prev x = h.prev x)
    (hp2 : ∀ x ∈ A, h'.prev x = h.prev x)
    (hp3 : Path h'.prev (firstOf B head) M'.reverse (lastOf head A)) :
    IsQueue h' head (A ++ (M' ++ B)) := by
  obtain ⟨hh, hz, _, hnext, hprev, _⟩ := hq
  have hndA : (head :: A).Nodup := by
    have := hnd
    simp only [List.nodup_cons, List.nodup_append, List.mem_append] at this ⊢
    exact ⟨fun e => this.1 (Or.inl e), this.2.1⟩
  have hndB : (head :: B.reverse).Nodup := by
    have := hnd
    simp only [List.nodup_cons, List.nodup_append, List.mem_append, List.mem_reverse,
      List.nodup_reverse] at this ⊢
    exact ⟨fun e => this.1 (Or.inr (Or.inr e)), this.2.2.1.2.1⟩
  refine ⟨hh, ?_, hnd, ?_, ?_, hlive⟩
  · simp only [List.mem_append, not_or] at hz ⊢
    exact ⟨hz.1, h0, hz.2.2⟩
  · exact Path.splice M M' B head A head hndA hn1 hn2 hn3 hnext
  · have e1 : (A ++ (M ++ B)).reverse = B.reverse ++ (M.reverse ++ A.reverse) := by simp
    have e2 : (A ++ (M' ++ B)).reverse = B.reverse ++ (M'.reverse ++ A.reverse) := by simp
    rw [e1] at hprev
    rw [e2]
    apply Path.splice M.reverse M'.reverse A.reverse head B.reverse head hndB ?_ ?_ ?_ hprev
    · intro x hx hne
      rw [lastOf_reverse] at hne
      exact hp1 x (by simpa using hx) hne
    · intro x hx
      exact hp2 x (by simpa using hx)
    · rw [lastOf_reverse, firstOf_reverse]; exact hp3

@[simp] theorem list_del_next (h : Heap) (m : Ptr) :
    (list_del h m).next = upd h.next (h.prev m) (h.next m) := rfl
@[simp] theorem list_del_prev (h : Heap) (m : Ptr) :
    (list_del h m).prev = upd h.prev (h.next m) (h.prev m) := rfl
@[simp] theorem list_del_value (h : Heap) (m : Ptr) : (list_del h m).value = h.value := rfl
@[simp] theorem list_del_live (h : Heap) (m : Ptr) : (list_del h m).live = h.live := rfl

/-- In a queue, `next` of a node is the first node after it. -/
theorem IsQueue.next_eq {h : Heap} {head : Ptr} {A B : List Ptr} {m : Ptr}
    (hq : IsQueue h head (A ++ m :: B)) : h.next m = firstOf B head :=
  ((Path.append m B head A head).1 hq.2.2.2.1).2.first

/-- In a queue, `prev` of a node is the last node before it. -/
theorem IsQueue.prev_eq {h : Heap} {head : Ptr} {A B : List Ptr} {m : Ptr}
    (hq : IsQueue h head (A ++ m :: B)) : h.prev m = lastOf head A := by
  have hp := hq.2.2.2.2.1
  have e : (A ++ m :: B).reverse = B.reverse ++ m :: A.reverse := by simp
  rw [e] at hp
  have := ((Path.append m A.reverse head B.reverse head).1 hp).2.first
  rw [this, firstOf_reverse]

theorem IsQueue.next_head {h : Heap} {head : Ptr} {L : List Ptr}
    (hq : IsQueue h head L) : h.next head = firstOf L head :=
  hq.2.2.2.1.first

theorem IsQueue.prev_head {h : Heap} {head : Ptr} {L : List Ptr}
    (hq : IsQueue h head L) : h.prev head = lastOf head L := by
  have := hq.2.2.2.2.1.first
  rw [this, firstOf_reverse]

/-- Unlinking any payload node keeps the queue well-formed, with that node
gone from the traversal. -/
theorem IsQueue.list_del {h : Heap} {head : Ptr} {A B : List Ptr} {m : Ptr}
    (hq : IsQueue h head (A ++ m :: B)) : IsQueue (list_del h m) head (A ++ B) := by
  have hnx := hq.next_eq
  have hpv := hq.prev_eq
  have hnd := hq.2.2.1
  have hlv := hq.2.2.2.2.2
  have hnd' : (head :: (A ++ B)).Nodup := by
    simp only [List.nodup_cons, List.nodup_append, List.mem_append, List.mem_cons,
      List.disjoint_cons_right] at hnd ⊢
    tauto
  have hmem : ∀ x, x ∈ head :: (A ++ B) → x ∈ head :: (A ++ m :: B) := by
    intro x hx
    simp only [List.mem_cons, List.mem_append] at hx ⊢
    tauto
  have key := IsQueue.replace_stretch (Queue.list_del h m) A [m] [] B (by simpa using hq)
    (by simpa using hnd') (by simp) (by
      intro x hx
      exact hlv x (hmem x (by simpa using hx)))
    (by
      intro x _ hne
      rw [list_del_next, hpv, upd_ne _ _ hne])
    (by
      intro x hx
      rw [list_del_next, hpv, upd_ne]
      intro e
      have := lastOf_mem A head
      rw [← e] at this
      simp only [List.nodup_cons, List.nodup_append, List.mem_append, List.mem_cons,
        List.disjoint_cons_right, List.Disjoint] at hnd this
      rcases this with rfl | hxA
      · exact hnd.1 (Or.inr (Or.inr hx))
      · exact hnd.2.2.2 hxA (Or.inr hx))
    (by simp [Path, hpv, hnx])
    (by
      intro x _ hne
      rw [list_del_prev, hnx, upd_ne _ _ hne])
    (by
      intro x hx
      rw [list_del_prev, hnx, upd_ne]
      intro e
      have := firstOf_mem B head
      rw [← e] at this
      simp only [List.nodup_cons, List.nodup_append, List.mem_append, List.mem_cons,
        List.disjoint_cons_right, List.Disjoint] at hnd this
      rcases this with rfl | hxB
      · exact hnd.1 (Or.inl hx)
      · exact hnd.2.2.2 hx (Or.inr hxB))
    (by simp [Path, hpv, hnx])
  simpa using key

@[simp] theorem list_add_next (h : Heap) (node head : Ptr) :
    (list_add h node head).next = upd (upd h.next node (h.next head)) head node := rfl
@[simp] theorem list_add_prev (h : Heap) (node head : Ptr) :
    (list_add h node head).prev = upd (upd h.prev (h.next head) node) node head := rfl
@[simp] theorem list_add_value (h : Heap) (node head : Ptr) :
    (list_add h node head).value = h.value := rfl
@[simp] theorem list_add_live (h : Heap) (node head : Ptr) :
    (list_add h node head).live = h.live := rfl

@[simp] theorem list_add_tail_next (h : Heap) (node head : Ptr) :
    (list_add_tail h node head).next = upd (upd h.next (h.prev head) node) node head := rfl
@[simp] theorem list_add_tail_prev (h : Heap) (node head : Ptr) :
    (list_add_tail h node head).prev = upd (upd h.prev node (h.prev head)) head node := rfl
@[simp] theorem list_add_tail_value (h : Heap) (node head : Ptr) :
    (list_add_tail h node head).value = h.value := rfl
@[simp] theorem list_add_tail_live (h : Heap) (node head : Ptr) :
    (list_add_tail h node head).live = h.live := rfl

/-- A heap with the same links and at least the same live blocks holds the
same queue. -/
theorem IsQueue.mono {h h' : Heap} {head : Ptr} {L : List Ptr} (hq : IsQueue h head L)
    (hn : h'.next = h.next) (hp : h'.prev = h.prev)
    (hl : ∀ x ∈ head :: L, x ∈ h'.live) : IsQueue h' head L := by
  obtain ⟨a, b, c, d, e, _⟩ := hq
  exact ⟨a, b, c, hn ▸ d, hp ▸ e, hl⟩

/-- Linking a new block right after the sentinel puts it first. -/
theorem IsQueue.list_add {h : Heap} {head node : Ptr} {L : List Ptr}
    (hq : IsQueue h head L) (hn0 : node ≠ 0) (hfresh : node ∉ head :: L)
    (hlive : node ∈ h.live) : IsQueue (list_add h node head) head (node :: L) := by
  have hnx := hq.next_head
  have hnd := hq.2.2.1
  have hlv := hq.2.2.2.2.2
  have hne : node ≠ head := fun e => hfresh (by simp [e])
  have hnotL : node ∉ L := fun e => hfresh (List.mem_cons_of_mem _ e)
  have key := IsQueue.replace_stretch (Queue.list_add h node head) [] [] [node] L
    (by simpa using hq)
    (by
      simp only [List.nil_append, List.singleton_append, List.nodup_cons, List.mem_cons,
        not_or] at hnd ⊢
      exact ⟨⟨fun e => hne e.symm, hnd.1⟩, hnotL, hnd.2⟩)
    (by simpa using fun e => hn0 e.symm)
    (by
      intro x hx
      simp only [List.nil_append, List.singleton_append, List.mem_cons] at hx
      rw [list_add_live]
      rcases hx with rfl | rfl | hx
      · exact hlv _ (by simp)
      · exact hlive
      · exact hlv _ (List.mem_cons_of_mem _ hx))
    (by
      intro x hx hne'
      simp only [List.mem_singleton] at hx
      exact absurd hx (by simpa [lastOf] using hne'))
    (by
      intro x hx
      have h1 : x ≠ head := fun e => (List.nodup_cons.1 hnd).1 (e ▸ hx)
      have h2 : x ≠ node := fun e => hnotL (e ▸ hx)
      rw [list_add_next, upd_ne _ _ h1, upd_ne _ _ h2])
    (by
      simp only [lastOf, Path, list_add_next, upd_same, upd_ne _ _ hne, hnx]
      exact ⟨trivial, trivial⟩)
    (by
      intro x hx hne'
      have h2 : x ≠ node := fun e => hfresh (e ▸ hx)
      rw [list_add_prev, upd_ne _ _ h2, hnx, upd_ne _ _ hne'])
    (by intro x hx; simp at hx)
    (by
      have hb : firstOf L head ≠ node := fun e => hfresh (e ▸ firstOf_mem L head)
      simp only [lastOf, List.reverse_cons, List.reverse_nil, List.nil_append, Path,
        list_add_prev, upd_same, upd_ne _ _ hb, hnx]
      exact ⟨trivial, trivial⟩)
  simpa using key

/-- Linking a new block right before the sentinel puts it last. -/
theorem IsQueue.list_add_tail {h : Heap} {head node : Ptr} {L : List Ptr}
    (hq : IsQueue h head L) (hn0 : node ≠ 0) (hfresh : node ∉ head :: L)
    (hlive : node ∈ h.live) : IsQueue (list_add_tail h node head) head (L ++ [node]) := by
  have hpv := hq.prev_head
  have hnd := hq.2.2.1
  have hlv := hq.2.2.2.2.2
  have hne : node ≠ head := fun e => hfresh (by simp [e])
  have hnotL : node ∉ L := fun e => hfresh (List.mem_cons_of_mem _ e)
  have key := IsQueue.replace_stretch (Queue.list_add_tail h node head) L [] [node] []
    (by simpa using hq)
    (by
      have : (head :: (L ++ [node])).Nodup := by
        rw [List.nodup_cons] at hnd ⊢
        refine ⟨?_, List.Nodup.append hnd.2 (List.nodup_singleton _) (by simpa using hnotL)⟩
        simp [hnd.1, Ne.symm hne]
      simpa using this)
    (by simpa using fun e => hn0 e.symm)
    (by
      intro x hx
      simp only [List.append_nil, List.mem_cons, List.mem_append, List.mem_singleton,
        List.not_mem_nil, or_false] at hx
      rw [list_add_tail_live]
      rcases hx with rfl | hx | rfl
      · exact hlv _ (by simp)
      · exact hlv _ (List.mem_cons_of_mem _ hx)
      · exact hlive)
    (by
      intro x hx hne'
      have h2 : x ≠ node := fun e => hfresh (e ▸ hx)
      rw [list_add_tail_next, upd_ne _ _ h2, hpv, upd_ne _ _ hne'])
    (by intro x hx; simp at hx)
    (by
      have hb : lastOf head L ≠ node := fun e => hfresh (e ▸ lastOf_mem L head)
      simp only [firstOf, Path, list_add_tail_next, upd_same, upd_ne _ _ hb, hpv]
      exact ⟨trivial, trivial⟩)
    (by
      intro x hx hne'
      simp only [List.mem_singleton] at hx
      exact absurd hx (by simpa [firstOf] using hne'))
    (by
      intro x hx
      have h1 : x ≠ head := fun e => (List.nodup_cons.1 hnd).1 (e ▸ hx)
      have h2 : x ≠ node := fun e => hnotL (e ▸ hx)
      rw [list_add_tail_prev, upd_ne _ _ h1, upd_ne _ _ h2])
    (by
      simp only [firstOf, List.reverse_cons, List.reverse_nil, List.nil_append, Path,
        list_add_tail_prev, upd_same, upd_ne _ _ hne, hpv]
      exact ⟨trivial, trivial⟩)
  simpa using key

/-! ## The four end operations on a well-formed queue -/

theorem IsQueue.head_ne_zero {h : Heap} {head : Ptr} {L : List Ptr}
    (hq : IsQueue h head L) : head ≠ 0 := hq.1

theorem IsQueue.next_head_ne {h : Heap} {head : Ptr} {L : List Ptr}
    (hq : IsQueue h head L) (hL : L ≠ []) : h.next head ≠ head := by
  rw [hq.next_head]
  cases L with
  | nil => exact absurd rfl hL
  | cons a L =>
    intro e
    exact (List.nodup_cons.1 hq.2.2.1).1 (by simp [firstOf] at e; simp [e])

theorem IsQueue.empty_links {h : Heap} {head : Ptr} (hq : IsQueue h head []) :
    h.next head = head ∧ h.prev head = head := by
  refine ⟨by simpa [firstOf] using hq.next_head, by simpa [lastOf] using hq.prev_head⟩

/-- The heap `new_element` leaves when both allocations succeed, with the new
element linked first. -/
theorem q_insert_head_ok {h : Heap} {head : Ptr} {L : List Ptr} (hq : IsQueue h head L)
    (s : Str) {p : Ptr} (hp0 : p ≠ 0) (hfresh : p ∉ h.live) :
    q_insert_head h head s p true = (true, list_add ((h.malloc p).setValue p s) p head) ∧
    IsQueue (list_add ((h.malloc p).setValue p s) p head) head (p :: L) := by
  have hlv := hq.2.2.2.2.2
  have hq1 : IsQueue ((h.malloc p).setValue p s) head L :=
    hq.mono rfl rfl (fun x hx => List.mem_cons_of_mem _ (hlv x hx))
  refine ⟨by simp [q_insert_head, new_element, hq.1, hp0], ?_⟩
  exact hq1.list_add hp0 (fun e => hfresh (hlv p e)) (by simp [Heap.setValue, Heap.malloc])

theorem q_insert_tail_ok {h : Heap} {head : Ptr} {L : List Ptr} (hq : IsQueue h head L)
    (s : Str) {p : Ptr} (hp0 : p ≠ 0) (hfresh : p ∉ h.live) :
    q_insert_tail h head s p true = (true, list_add_tail ((h.malloc p).setValue p s) p head) ∧
    IsQueue (list_add_tail ((h.malloc p).setValue p s) p head) head (L ++ [p]) := by
  have hlv := hq.2.2.2.2.2
  have hq1 : IsQueue ((h.malloc p).setValue p s) head L :=
    hq.mono rfl rfl (fun x hx => List.mem_cons_of_mem _ (hlv x hx))
  refine ⟨by simp [q_insert_tail, new_element, hq.1, hp0], ?_⟩
  exact hq1.list_add_tail hp0 (fun e => hfresh (hlv p e)) (by simp [Heap.setValue, Heap.malloc])

/-- The value field after a successful insertion: the new block holds `s`,
every live block keeps its value. -/
theorem value_after_insert (h : Heap) (p : Ptr) (s : Str) :
    ((h.malloc p).setValue p s).value p = s ∧
    ∀ x, x ≠ p → ((h.malloc p).setValue p s).value x = h.value x := by
  refine ⟨by simp [Heap.setValue], fun x hx => by simp [Heap.setValue, Heap.malloc, upd_ne _ _ hx]⟩

/-- When `malloc` or `strdup` fails, or the queue is absent, the heap keeps
the same links, and the same live blocks if the block offered was fresh. -/
theorem new_element_fail_links (h : Heap) (s : Str) (p : Ptr) (dup : Bool)
    (hf : (new_element h s p dup).1 = 0) :
    (new_element h s p dup).2.next = h.next ∧ (new_element h s p dup).2.prev = h.prev ∧
    (new_element h s p dup).2.value = h.value ∧
    ∀ x ∈ h.live, x ≠ p ∨ p = 0 → x ∈ (new_element h s p dup).2.live := by
  unfold new_element at hf ⊢
  by_cases hp : p = 0
  · simp [hp]
  · cases dup with
    | false =>
      simp only [hp, if_false, if_true]
      refine ⟨rfl, rfl, rfl, ?_⟩
      intro x hx hor
      simp only [Heap.free, Heap.malloc, List.mem_filter, List.mem_cons, decide_eq_true_eq]
      rcases hor with h1 | h1
      · exact ⟨Or.inr hx, h1⟩
      · exact h1.elim
    | true =>
      simp [hp] at hf

theorem q_remove_head_nil {h : Heap} {head : Ptr} (hq : IsQueue h head [])
    (sp : Option Buf) (n : Nat) : q_remove_head h head sp n = (0, h, sp) := by
  simp [q_remove_head, list_empty, hq.empty_links.1]

theorem q_remove_tail_nil {h : Heap} {head : Ptr} (hq : IsQueue h head [])
    (sp : Option Buf) (n : Nat) : q_remove_tail h head sp n = (0, h, sp) := by
  simp [q_remove_tail, list_empty, hq.empty_links.1]

theorem q_remove_head_cons {h : Heap} {head a : Ptr} {L : List Ptr}
    (hq : IsQueue h head (a :: L)) (sp : Option Buf) (n : Nat) :
    q_remove_head h head sp n = (a, list_del h a, copyOut sp (h.value a) n) ∧
    a ≠ 0 ∧ IsQueue (list_del h a) head L := by
  have ha : h.next head = a := by simpa [firstOf] using hq.next_head
  have hne : h.next head ≠ head := hq.next_head_ne (by simp)
  have ha0 : a ≠ 0 := fun e => hq.2.1 (by simp [e])
  refine ⟨?_, ha0, ?_⟩
  · rw [ha] at hne
    simp [q_remove_head, list_first_entry, list_empty, hq.1, hne, ha, ha0]
  · exact IsQueue.list_del (A := []) (by simpa using hq)

theorem q_remove_tail_concat {h : Heap} {head a : Ptr} {L : List Ptr}
    (hq : IsQueue h head (L ++ [a])) (sp : Option Buf) (n : Nat) :
    q_remove_tail h head sp n = (a, list_del h a, copyOut sp (h.value a) n) ∧
    a ≠ 0 ∧ IsQueue (list_del h a) head L := by
  have ha : h.prev head = a := by
    rw [hq.prev_head, lastOf_append]; rfl
  have hne : h.next head ≠ head := hq.next_head_ne (by simp)
  have ha0 : a ≠ 0 := fun e => hq.2.1 (by simp [e])
  refine ⟨?_, ha0, ?_⟩
  · simp [q_remove_tail, list_last_entry, list_empty, hq.1, hne, ha, ha0]
  · simpa using IsQueue.list_del (B := []) hq

theorem q_new_ok (h : Heap) {p : Ptr} (hp : p ≠ 0) :
    q_new h p = (p, INIT_LIST_HEAD (h.malloc p) p) ∧
    IsQueue (INIT_LIST_HEAD (h.malloc p) p) p [] := by
  refine ⟨by simp [q_new, hp], ?_⟩
  refine ⟨hp, by simp, by simp, ?_, ?_, ?_⟩
  · simp [Path, INIT_LIST_HEAD, Heap.setNext, Heap.setPrev]
  · simp [Path, INIT_LIST_HEAD, Heap.setNext, Heap.setPrev]
  · simp [INIT_LIST_HEAD, Heap.setNext, Heap.setPrev, Heap.malloc]

theorem q_insert_head_true {h : Heap} {head : Ptr} {s : Str} {p : Ptr} {dup : Bool}
    (ht : (q_insert_head h head s p dup).1 = true) : p ≠ 0 ∧ dup = true := by
  unfold q_insert_head new_element at ht
  by_cases hh : head = 0
  · simp [hh] at ht
  · by_cases hp : p = 0
    · simp [hh, hp] at ht
    · cases dup with
      | false => simp [hh, hp] at ht
      | true => exact ⟨hp, rfl⟩

theorem q_insert_tail_true {h : Heap} {head : Ptr} {s : Str} {p : Ptr} {dup : Bool}
    (ht : (q_insert_tail h head s p dup).1 = true) : p ≠ 0 ∧ dup = true := by
  unfold q_insert_tail new_element at ht
  by_cases hh : head = 0
  · simp [hh] at ht
  · by_cases hp : p = 0
    · simp [hh, hp] at ht
    · cases dup with
      | false => simp [hh, hp] at ht
      | true => exact ⟨hp, rfl⟩

theorem map_value_insert {h : Heap} {head : Ptr} {L : List Ptr} (hq : IsQueue h head L)
    (s : Str) {p : Ptr} (hfresh : p ∉ h.live) :
    L.map ((h.malloc p).setValue p s).value = L.map h.value := by
  apply List.map_congr_left
  intro x hx
  have : x ≠ p := fun e => hfresh (e ▸ hq.2.2.2.2.2 x (List.mem_cons_of_mem _ hx))
  exact (value_after_insert h p s).2 x this

/-- A successful run from a well-formed queue is matched step by step by the
reference deque started on the values of the queue. -/
theorem runCalls_refines (head : Ptr) :
    ∀ (cs : List Call) (h : Heap) (L : List Ptr), IsQueue h head L →
      (runCalls head h cs).ok = true →
      ∃ L', IsQueue (runCalls head h cs).heap head L' ∧
        (refRun (L.map h.value) cs).ok = true ∧
        (refRun (L.map h.value) cs).content = L'.map (runCalls head h cs).heap.value ∧
        (refRun (L.map h.value) cs).outs = (runCalls head h cs).outs ∧
        L'.length + removes cs = L.length + inserts cs := by
  intro cs
  induction cs with
  | nil =>
    intro h L hq _
    exact ⟨L, hq, rfl, rfl, rfl, by simp [removes, inserts]⟩
  | cons c cs ih =>
    intro h L hq hok
    cases c with
    | insert_head s p dup =>
      simp only [runCalls, Bool.and_eq_true, decide_eq_true_eq] at hok ⊢
      obtain ⟨⟨hfresh, hret⟩, hrest⟩ := hok
      obtain ⟨hp0, rfl⟩ := q_insert_head_true hret
      obtain ⟨heq, hq'⟩ := q_insert_head_ok hq s hp0 hfresh
      rw [heq] at hrest ⊢
      obtain ⟨L', h1, h2, h3, h4, h5⟩ := ih _ _ hq' hrest
      have hv : (p :: L).map (list_add ((h.malloc p).setValue p s) p head).value
          = Deque.push_front (L.map h.value) s := by
        simp only [list_add_value, List.map_cons, Deque.push_front, map_value_insert hq s hfresh,
          (value_after_insert h p s).1]
      rw [hv] at h2 h3 h4
      refine ⟨L', h1, by simpa [refRun] using h2, by simpa [refRun] using h3,
        by simpa [refRun] using h4, ?_⟩
      simp only [removes, inserts, List.filter, Call.isInsert, Bool.not_true, List.length_cons]
        at h5 ⊢
      omega
    | insert_tail s p dup =>
      simp only [runCalls, Bool.and_eq_true, decide_eq_true_eq] at hok ⊢
      obtain ⟨⟨hfresh, hret⟩, hrest⟩ := hok
      obtain ⟨hp0, rfl⟩ := q_insert_tail_true hret
      obtain ⟨heq, hq'⟩ := q_insert_tail_ok hq s hp0 hfresh
      rw [heq] at hrest ⊢
      obtain ⟨L', h1, h2, h3, h4, h5⟩ := ih _ _ hq' hrest
      have hv : (L ++ [p]).map (list_add_tail ((h.malloc p).setValue p s) p head).value
          = Deque.push_back (L.map h.value) s := by
        simp only [list_add_tail_value, List.map_append, List.map_cons, List.map_nil,
          Deque.push_back, map_value_insert hq s hfresh, (value_after_insert h p s).1]
      rw [hv] at h2 h3 h4
      refine ⟨L', h1, by simpa [refRun] using h2, by simpa [refRun] using h3,
        by simpa [refRun] using h4, ?_⟩
      simp only [removes, inserts, List.filter, Call.isInsert, Bool.not_true, List.length_cons,
        List.length_append, List.length_nil] at h5 ⊢
      omega
    | remove_head sp n =>
      simp only [runCalls, Bool.and_eq_true, decide_eq_true_eq] at hok ⊢
      obtain ⟨hret, hrest⟩ := hok
      cases L with
      | nil => rw [q_remove_head_nil hq] at hret; exact absurd rfl hret
      | cons a L =>
        obtain ⟨heq, _, hq'⟩ := q_remove_head_cons hq sp n
        rw [heq] at hrest ⊢
        obtain ⟨L', h1, h2, h3, h4, h5⟩ := ih _ _ hq' hrest
        simp only [list_del_value] at h2 h3 h4 ⊢
        refine ⟨L', h1, by simpa [refRun, Deque.pop_front] using h2,
          by simpa [refRun, Deque.pop_front] using h3,
          by simpa [refRun, Deque.pop_front] using h4, ?_⟩
        simp only [removes, inserts, List.filter, Call.isInsert, Bool.not_false,
          List.length_cons] at h5 ⊢
        omega
    | remove_tail sp n =>
      simp only [runCalls, Bool.and_eq_true, decide_eq_true_eq] at hok ⊢
      obtain ⟨hret, hrest⟩ := hok
      rcases List.eq_nil_or_concat L with rfl | ⟨L0, a, rfl⟩
      · rw [q_remove_tail_nil hq] at hret; exact absurd rfl hret
      · rw [List.concat_eq_append] at hq ⊢
        obtain ⟨heq, _, hq'⟩ := q_remove_tail_concat hq sp n
        rw [heq] at hrest ⊢
        obtain ⟨L', h1, h2, h3, h4, h5⟩ := ih _ _ hq' hrest
        simp only [list_del_value] at h2 h3 h4 ⊢
        have hpop : Deque.pop_back (List.map h.value L0 ++ [h.value a])
            = some (h.value a, L0.map h.value) := by
          simp [Deque.pop_back, List.getLast?_concat]
        refine ⟨L', h1, by simpa [refRun, hpop] using h2, by simpa [refRun, hpop] using h3,
          by simpa [refRun, hpop] using h4, ?_⟩
        simp only [removes, inserts, List.filter, Call.isInsert, Bool.not_false,
          List.length_cons, List.length_append, List.length_nil] at h5 ⊢
        omega

/-! ## Indexing into a queue -/

theorem nth_split (c : Ptr) : ∀ (L : List Ptr) (i : Nat), i < L.length →
    L = L.take i ++ nth L i c :: L.drop (i + 1) := by
  intro L
  induction L with
  | nil => intro i hi; simp at hi
  | cons x xs ih =>
    intro i hi
    cases i with
    | zero => simp [nth]
    | succ i =>
      have := ih i (by simpa using hi)
      simp only [List.take_succ_cons, nth, List.drop_succ_cons, List.cons_append]
      rw [← this]

theorem nth_mem (c : Ptr) : ∀ (L : List Ptr) (i : Nat), i < L.length → nth L i c ∈ L := by
  intro L
  induction L with
  | nil => intro i hi; simp at hi
  | cons x xs ih =>
    intro i hi
    cases i with
    | zero => simp [nth]
    | succ i => exact List.mem_cons_of_mem _ (ih i (by simpa using hi))

theorem nth_default (a c : Ptr) : ∀ (L : List Ptr) (i : Nat), i < L.length →
    nth L i a = nth L i c := by
  intro L
  induction L with
  | nil => intro i hi; simp at hi
  | cons x xs ih =>
    intro i hi
    cases i with
    | zero => simp [nth]
    | succ i => simpa [nth] using ih i (by simpa using hi)

theorem nth_beyond (c : Ptr) : ∀ (L : List Ptr) (i : Nat), L.length ≤ i → nth L i c = c := by
  intro L
  induction L with
  | nil => intro i _; simp [nth]
  | cons x xs ih =>
    intro i hi
    cases i with
    | zero => simp at hi
    | succ i => simpa [nth] using ih i (by simpa using hi)

theorem nth_inj (c : Ptr) : ∀ (L : List Ptr), L.Nodup → ∀ (i j : Nat), i < L.length →
    j < L.length → nth L i c = nth L j c → i = j := by
  intro L
  induction L with
  | nil => intro _ i j hi; simp at hi
  | cons x xs ih =>
    intro hnd i j hi hj he
    obtain ⟨hx, hnd'⟩ := List.nodup_cons.1 hnd
    cases i with
    | zero =>
      cases j with
      | zero => rfl
      | succ j =>
        simp only [nth] at he
        exact absurd (he ▸ nth_mem c xs j (by simpa using hj)) hx
    | succ i =>
      cases j with
      | zero =>
        simp only [nth] at he
        exact absurd (he ▸ nth_mem c xs i (by simpa using hi)) hx
      | succ j =>
        simp only [nth] at he
        rw [ih hnd' i j (by simpa using hi) (by simpa using hj) he]

theorem firstOf_drop (c : Ptr) : ∀ (L : List Ptr) (j : Nat),
    firstOf (L.drop j) c = nth L j c := by
  intro L
  induction L with
  | nil => intro j; simp [firstOf, nth]
  | cons x xs ih =>
    intro j
    cases j with
    | zero => simp [firstOf, nth]
    | succ j => simpa [nth] using ih j

theorem lastOf_take : ∀ (L : List Ptr) (j : Nat) (a : Ptr), j < L.length →
    lastOf a (L.take (j + 1)) = nth L j a := by
  intro L
  induction L with
  | nil => intro j a hj; simp at hj
  | cons x xs ih =>
    intro j a hj
    cases j with
    | zero => simp [lastOf, nth]
    | succ j =>
      rw [List.take_succ_cons]
      simp only [lastOf, nth]
      rw [ih j x (by simpa using hj)]
      exact nth_default x a xs j (by simpa using hj)

theorem not_mem_of_nodup_split {a m : Ptr} {A B : List Ptr}
    (hnd : (a :: (A ++ m :: B)).Nodup) : m ∉ a :: (A ++ B) := by
  obtain ⟨ha, hrest⟩ := List.nodup_cons.1 hnd
  have hm := (List.nodup_cons.1 (List.nodup_middle.1 hrest)).1
  intro hx
  rcases List.mem_cons.1 hx with rfl | hx
  · exact ha (by simp)
  · exact hm hx

theorem IsQueue.next_nth {h : Heap} {head : Ptr} {L : List Ptr} (hq : IsQueue h head L)
    {i : Nat} (hi : i < L.length) : h.next (nth L i head) = nth L (i + 1) head := by
  have hs := nth_split head L i hi
  rw [hs] at hq
  rw [hq.next_eq, firstOf_drop]

theorem IsQueue.prev_nth {h : Heap} {head : Ptr} {L : List Ptr} (hq : IsQueue h head L)
    {i : Nat} (hi : i + 1 < L.length) : h.prev (nth L (i + 1) head) = nth L i head := by
  have hs := nth_split head L (i + 1) hi
  rw [hs] at hq
  rw [hq.prev_eq, lastOf_take L i head (by omega)]

theorem IsQueue.next_head_nth {h : Heap} {head : Ptr} {L : List Ptr} (hq : IsQueue h head L) :
    h.next head = nth L 0 head := by
  rw [hq.next_head, ← firstOf_drop head L 0]; simp

theorem IsQueue.prev_head_nth {h : Heap} {head : Ptr} {L : List Ptr} (hq : IsQueue h head L)
    (hL : 0 < L.length) : h.prev head = nth L (L.length - 1) head := by
  rw [hq.prev_head, ← lastOf_take L (L.length - 1) head (by omega)]
  have : L.length - 1 + 1 = L.length := by omega
  rw [this, List.take_length]

theorem IsQueue.nth_ne_head {h : Heap} {head : Ptr} {L : List Ptr} (hq : IsQueue h head L)
    {i : Nat} (hi : i < L.length) : nth L i head ≠ head := by
  intro e
  exact (List.nodup_cons.1 hq.2.2.1).1 (e ▸ nth_mem head L i hi)

/-! ## `q_delete_mid` -/

/-- The two-pointer scan started `k` nodes in from both ends stops on the
node at index `(n - 1) / 2`. -/
theorem q_delete_mid_loop_eq {h : Heap} {head : Ptr} {L : List Ptr} (hq : IsQueue h head L)
    (hL : 0 < L.length) :
    ∀ (d k fuel : Nat), k + d = (L.length - 1) / 2 → d < fuel →
      q_delete_mid_loop h fuel (nth L k head) (nth L (L.length - 1 - k) head)
        = some (nth L ((L.length - 1) / 2) head) := by
  have hnd : L.Nodup := (List.nodup_cons.1 hq.2.2.1).2
  intro d
  induction d with
  | zero =>
    intro k fuel hk hf
    obtain ⟨f, rfl⟩ : ∃ f, fuel = f + 1 := ⟨fuel - 1, by omega⟩
    simp only [Nat.add_zero] at hk
    subst hk
    have hcase : L.length - 1 - (L.length - 1) / 2 = (L.length - 1) / 2 ∨
        L.length - 1 - (L.length - 1) / 2 = (L.length - 1) / 2 + 1 := by omega
    rcases hcase with e | e
    · simp [q_delete_mid_loop, e]
    · have hn := hq.next_nth (i := (L.length - 1) / 2) (by omega)
      simp [q_delete_mid_loop, e, hn]
  | succ d ih =>
    intro k fuel hk hf
    obtain ⟨f, rfl⟩ : ∃ f, fuel = f + 1 := ⟨fuel - 1, by omega⟩
    have hk1 : k < L.length := by omega
    have hk2 : L.length - 1 - k < L.length := by omega
    have hn := hq.next_nth (i := k) hk1
    have h1 : nth L (L.length - 1 - k) head ≠ nth L k head := by
      intro e
      have := nth_inj head L hnd _ _ hk2 hk1 e
      omega
    have h2 : nth L (L.length - 1 - k) head ≠ nth L (k + 1) head := by
      intro e
      have := nth_inj head L hnd _ _ hk2 (by omega) e
      omega
    have hp : h.prev (nth L (L.length - 1 - k) head) = nth L (L.length - 1 - (k + 1)) head := by
      have := hq.prev_nth (i := L.length - 1 - (k + 1)) (by omega)
      have e : L.length - 1 - (k + 1) + 1 = L.length - 1 - k := by omega
      rw [e] at this
      exact this
    have hrec := ih (k + 1) f (by omega) (by omega)
    simp only [q_delete_mid_loop, hn, h1, h2, ne_eq, not_false_eq_true, and_self, if_true, hp]
    exact hrec

/-- On a non-empty well-formed queue `q_delete_mid` succeeds and frees the
node at index `(n - 1) / 2`, the rest of the traversal keeping its order. -/
theorem q_delete_mid_ok {h : Heap} {head : Ptr} {L : List Ptr} (hq : IsQueue h head L)
    (hL : 0 < L.length) (fuel : Nat) (hf : (L.length - 1) / 2 < fuel) :
    q_delete_mid h head fuel = some (true, q_release_element
      (list_del h (nth L ((L.length - 1) / 2) head)) (nth L ((L.length - 1) / 2) head)) ∧
    IsQueue (q_release_element
      (list_del h (nth L ((L.length - 1) / 2) head)) (nth L ((L.length - 1) / 2) head))
      head (L.eraseIdx ((L.length - 1) / 2)) := by
  have hk : (L.length - 1) / 2 < L.length := by omega
  have hLne : L ≠ [] := by intro e; simp [e] at hL
  have hloop := q_delete_mid_loop_eq hq hL ((L.length - 1) / 2) 0 fuel (by omega) hf
  simp only [Nat.sub_zero] at hloop
  rw [← hq.next_head_nth, ← hq.prev_head_nth hL] at hloop
  have hne := hq.next_head_ne hLne
  have hn0 : h.next head ≠ 0 := by
    rw [hq.next_head_nth]
    intro e
    exact hq.2.1 (e ▸ nth_mem head L 0 hL)
  refine ⟨by simp [q_delete_mid, list_empty, hq.1, hne, hn0, hloop], ?_⟩
  have hs := nth_split head L _ hk
  have hq2 := hq
  rw [hs] at hq2
  have hdel := hq2.list_del
  rw [← List.eraseIdx_eq_take_drop_succ] at hdel
  refine hdel.mono rfl rfl ?_
  intro x hx
  have hxl := hdel.2.2.2.2.2 x hx
  have hnd := hq2.2.2.1
  have hxm : x ≠ nth L ((L.length - 1) / 2) head := by
    intro e
    rw [List.eraseIdx_eq_take_drop_succ] at hx
    exact not_mem_of_nodup_split hnd (e ▸ hx)
  simp only [q_release_element, Heap.free, List.mem_filter, decide_eq_true_eq]
  exact ⟨hxl, hxm⟩

/-! ## `q_swap` -/

theorem swap_nodup_facts {head a b : Ptr} {P R : List Ptr}
    (hnd : (head :: (P ++ a :: b :: R)).Nodup) :
    a ≠ b ∧ (∀ x ∈ head :: P, x ≠ a ∧ x ≠ b) ∧ (∀ x ∈ head :: R, x ≠ a ∧ x ≠ b) ∧
    (∀ x ∈ head :: P, x ∉ R) ∧ (∀ x ∈ head :: R, x ∉ P) := by
  simp only [List.nodup_cons, List.nodup_append, List.mem_append, List.mem_cons, not_or,
    List.Disjoint] at hnd
  obtain ⟨⟨hP, ha, hb, hR⟩, hndP, ⟨⟨hab, haR⟩, hbR, hndR⟩, hdis⟩ := hnd
  refine ⟨hab, ?_, ?_, ?_, ?_⟩
  · intro x hx
    rcases List.mem_cons.1 hx with rfl | hx
    · exact ⟨ha, hb⟩
    · exact ⟨fun e => hdis hx (Or.inl e), fun e => hdis hx (Or.inr (Or.inl e))⟩
  · intro x hx
    rcases List.mem_cons.1 hx with rfl | hx
    · exact ⟨ha, hb⟩
    · exact ⟨fun e => haR (e ▸ hx), fun e => hbR (e ▸ hx)⟩
  · intro x hx
    rcases List.mem_cons.1 hx with rfl | hx
    · exact hR
    · exact fun e => hdis hx (Or.inr (Or.inr e))
  · intro x hx
    rcases List.mem_cons.1 hx with rfl | hx
    · exact hP
    · exact fun e => hdis e (Or.inr (Or.inr hx))

/-- The link fields after the six stores of the loop body, on a queue in which
`a` and `b` are adjacent. -/
theorem q_swap_body_fields {h : Heap} {head a b : Ptr} {P R : List Ptr}
    (hq : IsQueue h head (P ++ a :: b :: R)) :
    (q_swap_body h a b).next
      = upd (upd (upd h.next (lastOf head P) b) a (firstOf R head)) b a ∧
    (q_swap_body h a b).prev
      = upd (upd (upd h.prev (firstOf R head) a) b (lastOf head P)) a b ∧
    (q_swap_body h a b).value = h.value ∧ (q_swap_body h a b).live = h.live := by
  obtain ⟨hab, hP, hR, _, _⟩ := swap_nodup_facts hq.2.2.1
  have he : h.prev a = lastOf head P := hq.prev_eq
  have hc : h.next b = firstOf R head := by
    have : IsQueue h head ((P ++ [a]) ++ b :: R) := by simpa using hq
    exact this.next_eq
  have heb : b ≠ lastOf head P := fun e => (hP _ (lastOf_mem P head)).2 e.symm
  have hca : a ≠ firstOf R head := fun e => (hR _ (firstOf_mem R head)).1 e.symm
  refine ⟨?_, ?_, rfl, rfl⟩
  · simp only [q_swap_body, Heap.setNext, Heap.setPrev, he, upd_ne _ _ heb, hc]
  · simp only [q_swap_body, Heap.setNext, Heap.setPrev, he, upd_ne _ _ heb, hc,
      upd_ne _ _ hca]

/-- One iteration of the loop exchanges the adjacent nodes `a` and `b`. -/
theorem IsQueue.swap_body {h : Heap} {head a b : Ptr} {P R : List Ptr}
    (hq : IsQueue h head (P ++ a :: b :: R)) :
    IsQueue (q_swap_body h a b) head (P ++ b :: a :: R) ∧
    (q_swap_body h a b).next a = firstOf R head := by
  obtain ⟨hnx, hpv, _, hlv⟩ := q_swap_body_fields hq
  obtain ⟨hab, hP, hR, hPR, hRP⟩ := swap_nodup_facts hq.2.2.1
  have hperm : (head :: (P ++ b :: a :: R)).Perm (head :: (P ++ a :: b :: R)) :=
    List.Perm.cons _ (List.Perm.append_left _ (List.Perm.swap _ _ _))
  have heP := lastOf_mem P head
  have hcR := firstOf_mem R head
  have hna : (q_swap_body h a b).next a = firstOf R head := by
    rw [hnx, upd_ne _ _ hab, upd_same]
  refine ⟨?_, hna⟩
  have key := IsQueue.replace_stretch (q_swap_body h a b) P [a, b] [b, a] R
    (by simpa using hq)
    (by simpa using hperm.nodup_iff.2 hq.2.2.1)
    (by
      have := hq.2.1
      simp only [List.mem_append, List.mem_cons, not_or] at this
      simp only [List.mem_cons, List.not_mem_nil, or_false, not_or]
      exact ⟨this.2.2.1, this.2.1⟩)
    (by
      intro x hx
      rw [hlv]
      exact hq.2.2.2.2.2 x (hperm.mem_iff.1 (by simpa using hx)))
    (by
      intro x hx hne
      rw [hnx, upd_ne _ _ (hP x hx).2, upd_ne _ _ (hP x hx).1, upd_ne _ _ hne])
    (by
      intro x hx
      have hxR : x ∈ head :: R := List.mem_cons_of_mem _ hx
      have hxe : x ≠ lastOf head P := fun e => hPR _ heP (e ▸ hx)
      rw [hnx, upd_ne _ _ (hR x hxR).2, upd_ne _ _ (hR x hxR).1, upd_ne _ _ hxe])
    (by
      simp only [Path]
      refine ⟨?_, ?_, hna⟩
      · rw [hnx, upd_ne _ _ (hP _ heP).2, upd_ne _ _ (hP _ heP).1, upd_same]
      · rw [hnx, upd_same])
    (by
      intro x hx hne
      rw [hpv, upd_ne _ _ (hR x hx).1, upd_ne _ _ (hR x hx).2, upd_ne _ _ hne])
    (by
      intro x hx
      have hxP : x ∈ head :: P := List.mem_cons_of_mem _ hx
      have hxc : x ≠ firstOf R head := fun e => hRP _ hcR (e ▸ hx)
      rw [hpv, upd_ne _ _ (hP x hxP).1, upd_ne _ _ (hP x hxP).2, upd_ne _ _ hxc])
    (by
      simp only [List.reverse_cons, List.reverse_nil, List.nil_append, List.singleton_append,
        Path]
      refine ⟨?_, ?_, ?_⟩
      · rw [hpv, upd_ne _ _ (hR _ hcR).1, upd_ne _ _ (hR _ hcR).2, upd_same]
      · rw [hpv, upd_same]
      · rw [hpv, upd_ne _ _ (Ne.symm hab), upd_same])
  simpa using key

/-- The loop started on the first node of `R` exchanges the pairs of `R` and
leaves what precedes `R` in place. -/
theorem q_swap_loop_ok (head : Ptr) :
    ∀ (n : Nat) (R P : List Ptr) (h : Heap) (fuel : Nat), R.length ≤ n →
      IsQueue h head (P ++ R) → R.length / 2 < fuel →
      ∃ h', q_swap_loop head fuel h (firstOf R head) (h.next (firstOf R head)) = some h' ∧
        IsQueue h' head (P ++ swapPairs R) ∧ h'.value = h.value ∧ h'.live = h.live := by
  intro n
  induction n using Nat.strong_induction_on with
  | _ n ih =>
    intro R P h fuel hn hq hf
    obtain ⟨f, rfl⟩ : ∃ f, fuel = f + 1 := ⟨fuel - 1, by omega⟩
    match R, hn, hq, hf with
    | [], _, hq, _ =>
      exact ⟨h, by simp [q_swap_loop, firstOf], by simpa [swapPairs] using hq, rfl, rfl⟩
    | [a], _, hq, _ =>
      have hna : h.next a = head := by simpa [firstOf] using hq.next_eq
      exact ⟨h, by simp [q_swap_loop, firstOf, hna], by simpa [swapPairs] using hq, rfl, rfl⟩
    | a :: b :: R', hn, hq, hf =>
      have hnab : h.next a = b := by simpa [firstOf] using hq.next_eq
      have hah : a ≠ head := fun e =>
        (List.nodup_cons.1 hq.2.2.1).1 (by simp [e])
      have hbh : b ≠ head := fun e =>
        (List.nodup_cons.1 hq.2.2.1).1 (by simp [e])
      obtain ⟨hq1, hna1⟩ := hq.swap_body
      obtain ⟨_, _, hv1, hl1⟩ := q_swap_body_fields hq
      have hq1' : IsQueue (q_swap_body h a b) head ((P ++ [b, a]) ++ R') := by
        simpa using hq1
      simp only [List.length_cons] at hn hf
      obtain ⟨h', e1, e2, e3, e4⟩ := ih (n - 2) (by omega) R' (P ++ [b, a])
        (q_swap_body h a b) f (by omega) hq1' (by omega)
      refine ⟨h', ?_, by simpa [swapPairs] using e2, by rw [e3, hv1], by rw [e4, hl1]⟩
      simp only [q_swap_loop, firstOf, hnab, hah, hbh, ne_eq, not_false_eq_true, and_self,
        if_true, hna1]
      exact e1

/-- On a well-formed queue `q_swap` returns with the pairs exchanged, and
with the values and the live blocks untouched. -/
theorem q_swap_ok {h : Heap} {head : Ptr} {L : List Ptr} (hq : IsQueue h head L)
    (fuel : Nat) (hf : 2 ≤ L.length → L.length / 2 < fuel) :
    ∃ h', q_swap h head fuel = some h' ∧ IsQueue h' head (swapPairs L) ∧
      h'.value = h.value ∧ h'.live = h.live := by
  by_cases hshort : L.length < 2
  · have hsame : h.next head = h.prev head := by
      match L, hq, hshort with
      | [], hq, _ => rw [hq.empty_links.1, hq.empty_links.2]
      | [a], hq, _ => rw [hq.next_head, hq.prev_head]; rfl
    have hsp : swapPairs L = L := by
      match L, hshort with
      | [], _ => rfl
      | [a], _ => rfl
    exact ⟨h, by simp [q_swap, hsame], by rw [hsp]; exact hq, rfl, rfl⟩
  · have hne : h.next head ≠ h.prev head := by
      rw [hq.next_head_nth, hq.prev_head_nth (by omega)]
      intro e
      have := nth_inj head L (List.nodup_cons.1 hq.2.2.1).2 _ _ (by omega) (by omega) e
      omega
    obtain ⟨h', e1, e2, e3, e4⟩ := q_swap_loop_ok head L.length L [] h fuel
      (le_refl _) (by simpa using hq) (hf (by omega))
    refine ⟨h', ?_, by simpa using e2, e3, e4⟩
    simp only [q_swap, hq.1, hne, or_self, if_false]
    rw [hq.next_head]
    exact e1

/-! ## `q_size` -/

theorem wrapInt_succ (c : Int) : wrapInt (wrapInt c + 1) = wrapInt (c + 1) := by
  unfold wrapInt
  omega

theorem wrapInt_of_lt {x : Int} (h0 : 0 ≤ x) (h1 : x < 2 ^ 31) : wrapInt x = x := by
  unfold wrapInt
  omega

theorem q_size_loop_eq {h : Heap} {head : Ptr} :
    ∀ (X : List Ptr) (a : Ptr) (fuel : Nat) (c : Int), Path h.next a X head → head ∉ X →
      X.length < fuel →
      q_size_loop h head fuel (h.next a) (wrapInt c) = some (wrapInt (c + X.length)) := by
  intro X
  induction X with
  | nil =>
    intro a fuel c hp _ hf
    obtain ⟨f, rfl⟩ : ∃ f, fuel = f + 1 := ⟨fuel - 1, by simp at hf; omega⟩
    simp only [Path] at hp
    simp [q_size_loop, hp]
  | cons x xs ih =>
    intro a fuel c hp hmem hf
    obtain ⟨f, rfl⟩ : ∃ f, fuel = f + 1 := ⟨fuel - 1, by simp at hf; omega⟩
    simp only [Path] at hp
    have hx : x ≠ head := fun e => hmem (by simp [e])
    have hrec := ih x f (c + 1) hp.2 (fun e => hmem (List.mem_cons_of_mem _ e))
      (by simp at hf; omega)
    simp only [q_size_loop, hp.1, hx, ne_eq, not_false_eq_true, if_true, wrapInt_succ]
    rw [hrec]
    congr 2
    simp only [List.length_cons]
    push_cast
    ring

/-- On a well-formed queue `q_size` returns the number of payload nodes
reduced to a 32-bit `int`. -/
theorem q_size_eq {h : Heap} {head : Ptr} {L : List Ptr} (hq : IsQueue h head L)
    {fuel : Nat} (hf : L.length < fuel) : q_size h head fuel = some (wrapInt L.length) := by
  have h0 : wrapInt 0 = 0 := by unfold wrapInt; omega
  have := q_size_loop_eq L head fuel 0 hq.2.2.2.1 (List.nodup_cons.1 hq.2.2.1).1 hf
  rw [h0] at this
  simp only [q_size, hq.1, ne_eq, not_false_eq_true, if_true, this, zero_add]

theorem q_size_null (h : Heap) (fuel : Nat) : q_size h 0 fuel = some 0 := by
  simp [q_size]

theorem path_up {f : Ptr → Ptr} {c : Ptr} :
    ∀ (n a : Nat), (∀ i, i < n → f (a + i) = a + i + 1) → f (a + n) = c →
      Path f a (List.range' (a + 1) n) c := by
  intro n
  induction n with
  | zero => intro a _ hc; simpa [Path] using hc
  | succ n ih =>
    intro a hstep hc
    rw [List.range'_succ]
    refine ⟨by simpa using hstep 0 (by omega), ?_⟩
    apply ih (a + 1)
    · intro i hi
      have := hstep (i + 1) (by omega)
      rw [show a + 1 + i = a + (i + 1) by omega]
      exact this
    · rw [show a + 1 + n = a + (n + 1) by omega]; exact hc

theorem path_down {g : Ptr → Ptr} {c : Ptr} (s : Nat) :
    ∀ (n : Nat), (∀ i, i < n → g (s + i + 1) = s + i) → g s = c →
      Path g (s + n) (List.range' s n).reverse c := by
  intro n
  induction n with
  | zero => intro _ hc; simpa [Path] using hc
  | succ n ih =>
    intro hstep hc
    rw [List.range'_concat, List.reverse_append]
    simp only [List.reverse_cons, List.reverse_nil, List.nil_append, List.singleton_append,
      Path, Nat.one_mul]
    refine ⟨hstep n (by omega), ih (fun i hi => hstep i (by omega)) hc⟩

/-- The row of `N` nodes is a well-formed queue. -/
theorem rowHeap_isQueue (N : Nat) : IsQueue (rowHeap N) 1 (List.range' 2 N) := by
  refine ⟨Nat.one_ne_zero, ?_, ?_, ?_, ?_, ?_⟩
  · intro hz
    have := List.mem_range'_1.1 hz
    omega
  · have : (1 : Nat) :: List.range' 2 N = List.range' 1 (N + 1) := by
      rw [List.range'_succ]
    rw [this]
    exact List.nodup_range' 1 (N + 1)
  · apply path_up N 1
    · intro i hi
      have : (1 + i = N + 1) = False := by simp; omega
      simp [rowHeap, this]
    · simp [rowHeap, Nat.add_comm]
  · cases N with
    | zero => simp [Path, rowHeap]
    | succ M =>
      rw [List.range'_concat, List.reverse_append]
      simp only [List.reverse_cons, List.reverse_nil, List.nil_append, List.singleton_append,
        Path, Nat.one_mul]
      refine ⟨by simp only [rowHeap, if_true]; exact (show M + 1 + 1 = 2 + M by omega), ?_⟩
      apply path_down 2 M
      · intro i hi
        have : (2 + i + 1 = 1) = False := by simp
        simp [rowHeap, this]
      · simp [rowHeap]
  · intro x hx
    have : (1 : Nat) :: List.range' 2 N = List.range' 1 (N + 1) := by
      rw [List.range'_succ]
    rw [this] at hx
    exact hx

/-! ## Remaining facts used by the main theorems -/

theorem new_element_ne_zero {h : Heap} {s : Str} {p : Ptr} {dup : Bool}
    (hr : (new_element h s p dup).1 ≠ 0) : p ≠ 0 ∧ dup = true := by
  unfold new_element at hr
  by_cases hp : p = 0
  · simp [hp] at hr
  · cases dup with
    | false => simp [hp] at hr
    | true => exact ⟨hp, rfl⟩

theorem q_insert_head_wf {h : Heap} {head : Ptr} {L : List Ptr} (hq : IsQueue h head L)
    (s : Str) (p : Ptr) (dup : Bool) (hm : p = 0 ∨ p ∉ h.live) :
    WellFormed (q_insert_head h head s p dup).2 head := by
  by_cases hr : (new_element h s p dup).1 = 0
  · obtain ⟨e1, e2, _, e4⟩ := new_element_fail_links h s p dup hr
    have : (q_insert_head h head s p dup).2 = (new_element h s p dup).2 := by
      simp [q_insert_head, hq.1, hr]
    rw [this]
    refine ⟨L, hq.mono e1 e2 ?_⟩
    intro x hx
    have hxl := hq.2.2.2.2.2 x hx
    refine e4 x hxl ?_
    rcases hm with h0 | hf
    · exact Or.inr h0
    · exact Or.inl (fun e => hf (e ▸ hxl))
  · obtain ⟨hp0, rfl⟩ := new_element_ne_zero hr
    have hfresh : p ∉ h.live := hm.resolve_left hp0
    obtain ⟨heq, hq'⟩ := q_insert_head_ok hq s hp0 hfresh
    rw [heq]
    exact ⟨_, hq'⟩

theorem q_insert_tail_wf {h : Heap} {head : Ptr} {L : List Ptr} (hq : IsQueue h head L)
    (s : Str) (p : Ptr) (dup : Bool) (hm : p = 0 ∨ p ∉ h.live) :
    WellFormed (q_insert_tail h head s p dup).2 head := by
  by_cases hr : (new_element h s p dup).1 = 0
  · obtain ⟨e1, e2, _, e4⟩ := new_element_fail_links h s p dup hr
    have : (q_insert_tail h head s p dup).2 = (new_element h s p dup).2 := by
      simp [q_insert_tail, hq.1, hr]
    rw [this]
    refine ⟨L, hq.mono e1 e2 ?_⟩
    intro x hx
    have hxl := hq.2.2.2.2.2 x hx
    refine e4 x hxl ?_
    rcases hm with h0 | hf
    · exact Or.inr h0
    · exact Or.inl (fun e => hf (e ▸ hxl))
  · obtain ⟨hp0, rfl⟩ := new_element_ne_zero hr
    have hfresh : p ∉ h.live := hm.resolve_left hp0
    obtain ⟨heq, hq'⟩ := q_insert_tail_ok hq s hp0 hfresh
    rw [heq]
    exact ⟨_, hq'⟩

theorem q_remove_head_wf {h : Heap} {head : Ptr} {L : List Ptr} (hq : IsQueue h head L)
    (sp : Option Buf) (n : Nat) : WellFormed (q_remove_head h head sp n).2.1 head := by
  cases L with
  | nil => rw [q_remove_head_nil hq]; exact ⟨_, hq⟩
  | cons a T =>
    obtain ⟨heq, _, hq'⟩ := q_remove_head_cons hq sp n
    rw [heq]; exact ⟨_, hq'⟩

theorem q_remove_tail_wf {h : Heap} {head : Ptr} {L : List Ptr} (hq : IsQueue h head L)
    (sp : Option Buf) (n : Nat) : WellFormed (q_remove_tail h head sp n).2.1 head := by
  rcases List.eq_nil_or_concat L with rfl | ⟨T, a, rfl⟩
  · rw [q_remove_tail_nil hq]; exact ⟨_, hq⟩
  · rw [List.concat_eq_append] at hq
    obtain ⟨heq, _, hq'⟩ := q_remove_tail_concat hq sp n
    rw [heq]; exact ⟨_, hq'⟩

theorem q_delete_mid_nil {h : Heap} {head : Ptr} (hq : IsQueue h head []) (fuel : Nat) :
    q_delete_mid h head fuel = some (false, h) := by
  simp [q_delete_mid, list_empty, hq.empty_links.1]

theorem q_delete_mid_null (h : Heap) (fuel : Nat) : q_delete_mid h 0 fuel = some (false, h) := by
  simp [q_delete_mid]

theorem mem_nth (c : Ptr) : ∀ (L : List Ptr) (x : Ptr), x ∈ L →
    ∃ i, i < L.length ∧ x = nth L i c := by
  intro L
  induction L with
  | nil => intro x hx; simp at hx
  | cons y ys ih =>
    intro x hx
    rcases List.mem_cons.1 hx with rfl | hx
    · exact ⟨0, by simp, rfl⟩
    · obtain ⟨i, hi, e⟩ := ih x hx
      exact ⟨i + 1, by simpa using hi, by simpa [nth] using e⟩

theorem IsQueue.prev_first {h : Heap} {head : Ptr} {L : List Ptr} (hq : IsQueue h head L)
    (hL : 0 < L.length) : h.prev (nth L 0 head) = head := by
  have hs := nth_split head L 0 hL
  rw [hs] at hq
  rw [hq.prev_eq]
  simp [lastOf]

/-- In a well-formed queue `prev` and `next` are inverse to each other on
the sentinel and on every payload node. -/
theorem IsQueue.prev_next {h : Heap} {head : Ptr} {L : List Ptr} (hq : IsQueue h head L) :
    ∀ n ∈ head :: L, h.prev (h.next n) = n ∧ h.next (h.prev n) = n := by
  intro n hn
  rcases List.mem_cons.1 hn with rfl | hn
  · by_cases hL : 0 < L.length
    · refine ⟨?_, ?_⟩
      · rw [hq.next_head_nth, hq.prev_first hL]
      · rw [hq.prev_head_nth hL, hq.next_nth (by omega)]
        have : L.length - 1 + 1 = L.length := by omega
        rw [this, nth_beyond _ _ _ (le_refl _)]
    · have : L = [] := List.length_eq_zero.1 (by omega)
      subst this
      rw [hq.empty_links.1, hq.empty_links.2]
      exact ⟨rfl, hq.empty_links.1⟩
  · obtain ⟨i, hi, e⟩ := mem_nth head L n hn
    rw [e]
    refine ⟨?_, ?_⟩
    · rw [hq.next_nth hi]
      by_cases hlast : i + 1 < L.length
      · exact hq.prev_nth hlast
      · have : i + 1 = L.length := by omega
        rw [this, nth_beyond _ _ _ (le_refl _), hq.prev_head_nth (by omega)]
        congr 1
        omega
    · cases i with
      | zero => rw [hq.prev_first (by omega), hq.next_head_nth]
      | succ j => rw [hq.prev_nth hi, hq.next_nth (by omega)]

/-! ## Main theorems -/

/-- C1: every run of successful `q_insert_head` / `q_insert_tail` /
`q_remove_head` / `q_remove_tail` calls on a freshly created queue ends in a
well-formed queue whose forward traversal carries exactly the content of the
reference deque driven by the same calls, and the removals return nodes
carrying the values the reference deque pops. -/
theorem deque_refinement (h0 : Heap) (p : Ptr) (cs : List Call) (hp : p ≠ 0)
    (hok : (runCalls p (q_new h0 p).2 cs).ok = true) :
    ∃ L, IsQueue (runCalls p (q_new h0 p).2 cs).heap p L ∧
      forward (runCalls p (q_new h0 p).2 cs).heap p (L.length + 1) = some L ∧
      (refRun [] cs).ok = true ∧
      (refRun [] cs).content = L.map (runCalls p (q_new h0 p).2 cs).heap.value ∧
      (refRun [] cs).outs = (runCalls p (q_new h0 p).2 cs).outs := by
  obtain ⟨heq, hq⟩ := q_new_ok h0 hp
  rw [heq] at hok ⊢
  obtain ⟨L, h1, h2, h3, h4, _⟩ := runCalls_refines p cs _ [] hq hok
  exact ⟨L, h1, h1.forward_eq (Nat.lt_succ_self _), h2, h3, h4⟩

theorem deque_refinement_witness :
    ∃ L, IsQueue (runCalls 1 (q_new emptyHeap 1).2 sampleCalls).heap 1 L ∧
      forward (runCalls 1 (q_new emptyHeap 1).2 sampleCalls).heap 1 (L.length + 1) = some L ∧
      (refRun [] sampleCalls).ok = true ∧
      (refRun [] sampleCalls).content
        = L.map (runCalls 1 (q_new emptyHeap 1).2 sampleCalls).heap.value ∧
      (refRun [] sampleCalls).outs = (runCalls 1 (q_new emptyHeap 1).2 sampleCalls).outs :=
  deque_refinement emptyHeap 1 sampleCalls (by decide) (by decide)

/-- C2: the link invariant is preserved by `q_insert_head`, `q_insert_tail`,
`q_remove_head`, `q_remove_tail`, `q_delete_mid` and `q_swap` (the two loops
return once given enough fuel), and `q_new` establishes it with a self-linked
sentinel.  The last part spells the invariant out: `next` from the sentinel
visits the payload nodes once each and returns, `prev` visits them in the
reverse order, and `prev` and `next` are inverse on every node. -/
theorem link_invariant_preserved (h : Heap) (head : Ptr) (hwf : WellFormed h head)
    (s : Str) (p : Ptr) (dup : Bool) (hmalloc : p = 0 ∨ p ∉ h.live)
    (sp : Option Buf) (bufsize : Nat) :
    WellFormed (q_insert_head h head s p dup).2 head ∧
    WellFormed (q_insert_tail h head s p dup).2 head ∧
    WellFormed (q_remove_head h head sp bufsize).2.1 head ∧
    WellFormed (q_remove_tail h head sp bufsize).2.1 head ∧
    (∃ N, ∀ fuel, N ≤ fuel → ∃ r, q_delete_mid h head fuel = some r ∧ WellFormed r.2 head) ∧
    (∃ N, ∀ fuel, N ≤ fuel → ∃ h', q_swap h head fuel = some h' ∧ WellFormed h' head) ∧
    (∀ (h0 : Heap) (q : Ptr), q ≠ 0 →
      (q_new h0 q).1 = q ∧ WellFormed (q_new h0 q).2 q ∧
      (q_new h0 q).2.next q = q ∧ (q_new h0 q).2.prev q = q) ∧
    (∃ L, forward h head (L.length + 1) = some L ∧
      backward h head (L.length + 1) = some L.reverse ∧ L.Nodup ∧
      ∀ n ∈ head :: L, h.prev (h.next n) = n ∧ h.next (h.prev n) = n) := by
  obtain ⟨L, hq⟩ := hwf
  refine ⟨q_insert_head_wf hq s p dup hmalloc, q_insert_tail_wf hq s p dup hmalloc,
    q_remove_head_wf hq sp bufsize, q_remove_tail_wf hq sp bufsize, ?_, ?_, ?_, ?_⟩
  · refine ⟨L.length, fun fuel hf => ?_⟩
    by_cases hL : 0 < L.length
    · obtain ⟨e1, e2⟩ := q_delete_mid_ok hq hL fuel (by omega)
      exact ⟨_, e1, _, e2⟩
    · have : L = [] := List.length_eq_zero.1 (by omega)
      subst this
      exact ⟨_, q_delete_mid_nil hq fuel, _, hq⟩
  · refine ⟨L.length, fun fuel hf => ?_⟩
    obtain ⟨h', e1, e2, _, _⟩ := q_swap_ok hq fuel (by omega)
    exact ⟨h', e1, _, e2⟩
  · intro h0 q hq0
    obtain ⟨heq, hq'⟩ := q_new_ok h0 hq0
    rw [heq]
    exact ⟨rfl, ⟨_, hq'⟩, hq'.empty_links.1, hq'.empty_links.2⟩
  · exact ⟨L, hq.forward_eq (Nat.lt_succ_self _), hq.backward_eq (Nat.lt_succ_self _),
      (List.nodup_cons.1 hq.2.2.1).2, hq.prev_next⟩

theorem link_invariant_preserved_witness :
    WellFormed sampleQueue 1 ∧ 5 ∉ sampleQueue.live ∧
    WellFormed (q_insert_head sampleQueue 1 [100] 5 true).2 1 ∧
    (∃ N, ∀ fuel, N ≤ fuel →
      ∃ h', q_swap sampleQueue 1 fuel = some h' ∧ WellFormed h' 1) :=
  ⟨⟨[2, 3, 4], by decide⟩, by decide,
    (link_invariant_preserved sampleQueue 1 ⟨[2, 3, 4], by decide⟩ [100] 5 true
      (Or.inr (by decide)) none 0).1,
    (link_invariant_preserved sampleQueue 1 ⟨[2, 3, 4], by decide⟩ [100] 5 true
      (Or.inr (by decide)) none 0).2.2.2.2.2.1⟩

/-- C3: `q_sort` has an empty body, so the queue "3", "1", "2", "1" is left in
that order instead of becoming "1", "1", "2", "3". -/
theorem q_sort_leaves_order :
    IsQueue unsortedQueue 1 [2, 3, 4, 5] ∧
    forward (q_sort unsortedQueue 1) 1 5 = some [2, 3, 4, 5] ∧
    contents (q_sort unsortedQueue 1) 1 5 = some [[51], [49], [50], [49]] ∧
    contents (q_sort unsortedQueue 1) 1 5 ≠ some [[49], [49], [50], [51]] := by
  decide

/-- C4: `q_reverse` has an empty body, so the queue "1", "2", "3", "4" keeps
its forward traversal instead of having it reversed. -/
theorem q_reverse_leaves_order :
    IsQueue fourQueue 1 [2, 3, 4, 5] ∧
    forward (q_reverse fourQueue 1) 1 5 = some [2, 3, 4, 5] ∧
    forward (q_reverse fourQueue 1) 1 5 ≠ some [2, 3, 4, 5].reverse ∧
    contents (q_reverse fourQueue 1) 1 5 = some [[49], [50], [51], [52]] := by
  decide

/-- C5: `q_delete_mid` misses the middle its own comment documents (the
`⌊n / 2⌋`th node, 0-based): on the queue "1", ..., "6" it deletes the node at
index 2 (value "3"), not the one at index `6 / 2 = 3`, and leaves
"1", "2", "4", "5", "6" instead of "1", "2", "3", "5", "6". -/
theorem q_delete_mid_six :
    IsQueue sixQueue 1 [2, 3, 4, 5, 6, 7] ∧
    (q_delete_mid sixQueue 1 6).map (fun r => (r.1, forward r.2 1 6))
      = some (true, some [2, 3, 5, 6, 7]) ∧
    (q_delete_mid sixQueue 1 6).map (fun r => forward r.2 1 6)
      ≠ some (some ([2, 3, 4, 5, 6, 7].eraseIdx (6 / 2))) ∧
    (q_delete_mid sixQueue 1 6).map (fun r => contents r.2 1 6)
      = some (some [[49], [50], [52], [53], [54]]) := by
  decide

/-- C6: `q_delete_dup` only returns `true`, so the sorted queue
"1", "1", "2", "3", "3", "3", "4" keeps all seven nodes instead of being cut
down to "2", "4". -/
theorem q_delete_dup_leaves_queue :
    IsQueue dupQueue 1 [2, 3, 4, 5, 6, 7, 8] ∧
    (q_delete_dup dupQueue 1).1 = true ∧
    forward (q_delete_dup dupQueue 1).2 1 8 = some [2, 3, 4, 5, 6, 7, 8] ∧
    contents (q_delete_dup dupQueue 1).2 1 8
      = some [[49], [49], [50], [51], [51], [51], [52]] ∧
    contents (q_delete_dup dupQueue 1).2 1 8 ≠ some [[50], [52]] := by
  decide

theorem swapPairs_length : ∀ (L : List Ptr), (swapPairs L).length = L.length := by
  intro L
  induction L using swapPairs.induct with
  | case1 a b rest ih => simp [swapPairs, ih]
  | case2 l hl =>
    rw [swapPairs]
    intro a b rest e
    exact hl a b rest e

theorem swapPairs_short {L : List Ptr} (hL : L.length < 2) : swapPairs L = L := by
  match L, hL with
  | [], _ => rfl
  | [_], _ => rfl

theorem swapPairs_get : ∀ (L : List Ptr) (i : Nat), 2 * i + 1 < L.length →
    (swapPairs L)[2 * i]? = L[2 * i + 1]? ∧ (swapPairs L)[2 * i + 1]? = L[2 * i]? := by
  intro L
  induction L using swapPairs.induct with
  | case1 a b rest ih =>
    intro i hi
    cases i with
    | zero => simp [swapPairs]
    | succ i =>
      have := ih i (by simp only [List.length_cons] at hi; omega)
      have e1 : 2 * (i + 1) = (2 * i + 1) + 1 := by omega
      have e2 : 2 * (i + 1) + 1 = (2 * i + 1 + 1) + 1 := by omega
      rw [e2, e1]
      simp only [swapPairs, List.getElem?_cons_succ]
      exact this
  | case2 l hl =>
    intro i hi
    match l, hl, hi with
    | [], _, hi => simp at hi
    | [_], _, hi => simp at hi
    | a :: b :: rest, hl, _ => exact absurd rfl (hl a b rest)

theorem swapPairs_last : ∀ (L : List Ptr), L.length % 2 = 1 →
    (swapPairs L)[L.length - 1]? = L[L.length - 1]? := by
  intro L
  induction L using swapPairs.induct with
  | case1 a b rest ih =>
    intro hodd
    simp only [List.length_cons] at hodd ⊢
    have hr : rest.length % 2 = 1 := by omega
    have := ih hr
    have e : rest.length + 1 + 1 - 1 = (rest.length - 1) + 1 + 1 := by omega
    rw [e]
    simp only [swapPairs, List.getElem?_cons_succ]
    exact this
  | case2 l hl =>
    intro _
    match l, hl with
    | [], _ => rfl
    | [_], _ => rfl
    | a :: b :: rest, hl => exact absurd rfl (hl a b rest)

/-- C7: on a well-formed queue `q_swap` returns (given fuel for the loop) with
forward traversal `swapPairs L`: positions `2i` and `2i+1` are exchanged for
every `2i+1 < n`, an odd last node stays last, and a queue of fewer than two
nodes is returned untouched. -/
theorem q_swap_exchanges_pairs (h : Heap) (head : Ptr) (L : List Ptr)
    (hq : IsQueue h head L) (fuel : Nat) (hf : L.length ≤ fuel) :
    (∃ h', q_swap h head fuel = some h' ∧ IsQueue h' head (swapPairs L) ∧
      forward h' head (L.length + 1) = some (swapPairs L)) ∧
    (swapPairs L).length = L.length ∧
    (∀ i, 2 * i + 1 < L.length →
      (swapPairs L)[2 * i]? = L[2 * i + 1]? ∧ (swapPairs L)[2 * i + 1]? = L[2 * i]?) ∧
    (L.length % 2 = 1 → (swapPairs L)[L.length - 1]? = L[L.length - 1]?) ∧
    (L.length < 2 → q_swap h head fuel = some h) := by
  refine ⟨?_, swapPairs_length L, swapPairs_get L, swapPairs_last L, ?_⟩
  · obtain ⟨h', e1, e2, _, _⟩ := q_swap_ok hq fuel (by omega)
    refine ⟨h', e1, e2, e2.forward_eq ?_⟩
    rw [swapPairs_length]
    exact Nat.lt_succ_self _
  · intro hshort
    have hsame : h.next head = h.prev head := by
      match L, hq, hshort with
      | [], hq, _ => rw [hq.empty_links.1, hq.empty_links.2]
      | [a], hq, _ => rw [hq.next_head, hq.prev_head]; rfl
    simp [q_swap, hsame]

theorem q_swap_exchanges_pairs_witness :
    (∃ h', q_swap fiveQueue 1 5 = some h' ∧ IsQueue h' 1 (swapPairs [2, 3, 4, 5, 6]) ∧
      forward h' 1 ([2, 3, 4, 5, 6].length + 1) = some (swapPairs [2, 3, 4, 5, 6])) ∧
    swapPairs [2, 3, 4, 5, 6] = [3, 2, 5, 4, 6] :=
  ⟨(q_swap_exchanges_pairs fiveQueue 1 [2, 3, 4, 5, 6] (by decide) 5 (by decide)).1,
    by decide⟩

/-- C8, as stated, fails beyond the range of `int`: on the well-formed queue of
`2^31` payload nodes the counter of `q_size` wraps and the result is `-2^31`. -/
theorem q_size_wraps :
    IsQueue (rowHeap (2 ^ 31)) 1 (List.range' 2 (2 ^ 31)) ∧
    (List.range' 2 (2 ^ 31)).length = 2 ^ 31 ∧
    q_size (rowHeap (2 ^ 31)) 1 (2 ^ 31 + 1) = some (-2 ^ 31) := by
  refine ⟨rowHeap_isQueue _, List.length_range' _ _ _, ?_⟩
  rw [q_size_eq (rowHeap_isQueue _) (by rw [List.length_range']; exact Nat.lt_succ_self _),
    List.length_range']
  congr 1

/-- C8, amended: on a well-formed queue of fewer than `2^31` payload nodes
`q_size` returns their number, and it returns 0 for an absent queue; so after
`k < 2^31` successful insertions into a new queue and no removal `q_size` is
`k`, and after a successful run that removes every element inserted `q_size`
is 0 and the sentinel is self-linked. -/
theorem q_size_counts (h : Heap) (head : Ptr) (L : List Ptr) (hq : IsQueue h head L)
    (hlen : L.length < 2 ^ 31) (fuel : Nat) (hf : L.length < fuel)
    (h0 : Heap) (p : Ptr) (cs : List Call) (hp : p ≠ 0)
    (hok : (runCalls p (q_new h0 p).2 cs).ok = true) (hk : inserts cs < 2 ^ 31) :
    q_size h head fuel = some (L.length : Int) ∧
    q_size h 0 fuel = some 0 ∧
    (removes cs = 0 →
      q_size (runCalls p (q_new h0 p).2 cs).heap p (inserts cs + 1)
        = some (inserts cs : Int)) ∧
    (removes cs = inserts cs →
      q_size (runCalls p (q_new h0 p).2 cs).heap p 1 = some 0 ∧
      (runCalls p (q_new h0 p).2 cs).heap.next p = p ∧
      (runCalls p (q_new h0 p).2 cs).heap.prev p = p ∧
      list_empty (runCalls p (q_new h0 p).2 cs).heap p = true) := by
  obtain ⟨heq, hq0⟩ := q_new_ok h0 hp
  rw [heq] at hok ⊢
  obtain ⟨L', h1, _, _, _, h5⟩ := runCalls_refines p cs _ [] hq0 hok
  simp only [List.length_nil, Nat.zero_add] at h5
  refine ⟨?_, q_size_null h fuel, ?_, ?_⟩
  · rw [q_size_eq hq hf, wrapInt_of_lt (by omega) (by exact_mod_cast hlen)]
  · intro hr
    have hlen' : L'.length = inserts cs := by omega
    rw [q_size_eq h1 (by omega), hlen', wrapInt_of_lt (by omega) (by exact_mod_cast hk)]
  · intro hr
    have hlen' : L'.length = 0 := by omega
    have hnil : L' = [] := List.length_eq_zero.1 hlen'
    subst hnil
    refine ⟨?_, h1.empty_links.1, h1.empty_links.2, ?_⟩
    · rw [q_size_eq h1 (by simp)]
      rfl
    · simp [list_empty, h1.empty_links.1]

theorem q_size_counts_witness :
    (q_size sampleQueue 1 4 = some (([2, 3, 4] : List Ptr).length : Int) ∧
      q_size (runCalls 1 (q_new emptyHeap 1).2 twoInserts).heap 1 (inserts twoInserts + 1)
        = some (inserts twoInserts : Int)) ∧
    (q_size (runCalls 1 (q_new emptyHeap 1).2 fillAndDrain).heap 1 1 = some 0 ∧
      (runCalls 1 (q_new emptyHeap 1).2 fillAndDrain).heap.next 1 = 1 ∧
      (runCalls 1 (q_new emptyHeap 1).2 fillAndDrain).heap.prev 1 = 1 ∧
      list_empty (runCalls 1 (q_new emptyHeap 1).2 fillAndDrain).heap 1 = true) :=
  ⟨⟨(q_size_counts sampleQueue 1 [2, 3, 4] (by decide) (by decide) 4 (by decide)
      emptyHeap 1 twoInserts (by decide) (by decide) (by decide)).1,
    (q_size_counts sampleQueue 1 [2, 3, 4] (by decide) (by decide) 4 (by decide)
      emptyHeap 1 twoInserts (by decide) (by decide) (by decide)).2.2.1 (by decide)⟩,
    (q_size_counts sampleQueue 1 [2, 3, 4] (by decide) (by decide) 4 (by decide)
      emptyHeap 1 fillAndDrain (by decide) (by decide) (by decide)).2.2.2 (by decide)⟩

/-- C9: on a well-formed queue a successful `q_insert_tail` of `v` followed
at once by `q_remove_tail`, called without a buffer or with `1 ≤ bufsize`,
returns the node just inserted, which carries `v`, and leaves a well-formed
queue with the forward traversal it had before. -/
theorem insert_tail_remove_tail_roundtrip (h : Heap) (head : Ptr) (L : List Ptr)
    (hq : IsQueue h head L) (v : Str) (p : Ptr) (dup : Bool) (hfresh : p ∉ h.live)
    (hsucc : (q_insert_tail h head v p dup).1 = true) (sp : Option Buf) (bufsize : Nat)
    (hbuf : sp = none ∨ 1 ≤ bufsize) :
    (q_remove_tail (q_insert_tail h head v p dup).2 head sp bufsize).1 ≠ 0 ∧
    (q_remove_tail (q_insert_tail h head v p dup).2 head sp bufsize).2.1.value
      (q_remove_tail (q_insert_tail h head v p dup).2 head sp bufsize).1 = v ∧
    IsQueue (q_remove_tail (q_insert_tail h head v p dup).2 head sp bufsize).2.1 head L ∧
    forward (q_remove_tail (q_insert_tail h head v p dup).2 head sp bufsize).2.1 head
      (L.length + 1) = some L ∧
    forward h head (L.length + 1) = some L := by
  have _ := hbuf
  obtain ⟨hp0, rfl⟩ := q_insert_tail_true hsucc
  obtain ⟨heq, hq1⟩ := q_insert_tail_ok hq v hp0 hfresh
  obtain ⟨heq2, _, hq2⟩ := q_remove_tail_concat hq1 sp bufsize
  rw [heq, heq2]
  refine ⟨hp0, ?_, hq2, hq2.forward_eq (Nat.lt_succ_self _), hq.forward_eq (Nat.lt_succ_self _)⟩
  simp only [list_del_value, list_add_tail_value]
  exact (value_after_insert h p v).1

theorem insert_tail_remove_tail_roundtrip_witness :
    (q_remove_tail (q_insert_tail sampleQueue 1 [100] 5 true).2 1 (some dirtyBuf) 4).1 ≠ 0 ∧
    (q_remove_tail (q_insert_tail sampleQueue 1 [100] 5 true).2 1 (some dirtyBuf) 4).2.1.value
      (q_remove_tail (q_insert_tail sampleQueue 1 [100] 5 true).2 1 (some dirtyBuf) 4).1
        = [100] ∧
    IsQueue (q_remove_tail (q_insert_tail sampleQueue 1 [100] 5 true).2 1
      (some dirtyBuf) 4).2.1 1 [2, 3, 4] ∧
    forward (q_remove_tail (q_insert_tail sampleQueue 1 [100] 5 true).2 1
      (some dirtyBuf) 4).2.1 1 ([2, 3, 4].length + 1) = some [2, 3, 4] ∧
    forward sampleQueue 1 ([2, 3, 4].length + 1) = some [2, 3, 4] :=
  insert_tail_remove_tail_roundtrip sampleQueue 1 [2, 3, 4] (by decide) [100] 5 true
    (by decide) (by decide) (some dirtyBuf) 4 (Or.inr (by decide))

/-- C10: for a queue that is absent or well-formed, `q_remove_head` and
`q_remove_tail`, called without a buffer or with `1 ≤ bufsize`, return `NULL`
exactly when the queue is absent or empty, and then the heap and the output
buffer are returned as they were; on a non-empty queue they return the first
(respectively last) node of the forward traversal and leave a well-formed
queue whose traversal is the original without that node. -/
theorem q_remove_null_iff (h : Heap) (head : Ptr) (L : List Ptr) (sp : Option Buf)
    (bufsize : Nat) (hq : head = 0 ∨ IsQueue h head L) (hbuf : sp = none ∨ 1 ≤ bufsize) :
    ((q_remove_head h head sp bufsize).1 = 0 ↔ head = 0 ∨ L = []) ∧
    ((q_remove_tail h head sp bufsize).1 = 0 ↔ head = 0 ∨ L = []) ∧
    ((q_remove_head h head sp bufsize).1 = 0 → q_remove_head h head sp bufsize = (0, h, sp)) ∧
    ((q_remove_tail h head sp bufsize).1 = 0 → q_remove_tail h head sp bufsize = (0, h, sp)) ∧
    (∀ a T, head ≠ 0 → L = a :: T →
      (q_remove_head h head sp bufsize).1 = a ∧
      IsQueue (q_remove_head h head sp bufsize).2.1 head T ∧
      forward (q_remove_head h head sp bufsize).2.1 head (T.length + 1) = some T) ∧
    (∀ T a, head ≠ 0 → L = T ++ [a] →
      (q_remove_tail h head sp bufsize).1 = a ∧
      IsQueue (q_remove_tail h head sp bufsize).2.1 head T ∧
      forward (q_remove_tail h head sp bufsize).2.1 head (T.length + 1) = some T) := by
  have _ := hbuf
  rcases hq with rfl | hq
  · have e1 : q_remove_head h 0 sp bufsize = (0, h, sp) := by simp [q_remove_head]
    have e2 : q_remove_tail h 0 sp bufsize = (0, h, sp) := by simp [q_remove_tail]
    rw [e1, e2]
    refine ⟨by simp, by simp, fun _ => rfl, fun _ => rfl, ?_, ?_⟩
    · intro a T hne; exact absurd rfl hne
    · intro T a hne; exact absurd rfl hne
  · have hh := hq.1
    refine ⟨?_, ?_, ?_, ?_, ?_, ?_⟩
    · cases L with
      | nil => rw [q_remove_head_nil hq]; simp
      | cons a T =>
        obtain ⟨heq, ha0, _⟩ := q_remove_head_cons hq sp bufsize
        rw [heq]; simp [ha0, hh]
    · rcases List.eq_nil_or_concat L with rfl | ⟨T, a, rfl⟩
      · rw [q_remove_tail_nil hq]; simp
      · rw [List.concat_eq_append] at hq ⊢
        obtain ⟨heq, ha0, _⟩ := q_remove_tail_concat hq sp bufsize
        rw [heq]; simp [ha0, hh]
    · cases L with
      | nil => intro _; exact q_remove_head_nil hq sp bufsize
      | cons a T =>
        obtain ⟨heq, ha0, _⟩ := q_remove_head_cons hq sp bufsize
        rw [heq]; intro e; exact absurd e ha0
    · rcases List.eq_nil_or_concat L with rfl | ⟨T, a, rfl⟩
      · intro _; exact q_remove_tail_nil hq sp bufsize
      · rw [List.concat_eq_append] at hq
        obtain ⟨heq, ha0, _⟩ := q_remove_tail_concat hq sp bufsize
        rw [heq]; intro e; exact absurd e ha0
    · intro a T _ hL
      subst hL
      obtain ⟨heq, _, hq'⟩ := q_remove_head_cons hq sp bufsize
      rw [heq]
      exact ⟨rfl, hq', hq'.forward_eq (Nat.lt_succ_self _)⟩
    · intro T a _ hL
      subst hL
      obtain ⟨heq, _, hq'⟩ := q_remove_tail_concat hq sp bufsize
      rw [heq]
      exact ⟨rfl, hq', hq'.forward_eq (Nat.lt_succ_self _)⟩

theorem q_remove_null_iff_witness :
    ((q_remove_head sampleQueue 1 (some dirtyBuf) 4).1 = 0 ↔
      (1 : Ptr) = 0 ∨ ([2, 3, 4] : List Ptr) = []) ∧
    (q_remove_head sampleQueue 1 (some dirtyBuf) 4).1 = 2 ∧
    IsQueue (q_remove_head sampleQueue 1 (some dirtyBuf) 4).2.1 1 [3, 4] ∧
    (q_remove_tail sampleQueue 1 (some dirtyBuf) 4).1 = 4 ∧
    IsQueue (q_remove_tail sampleQueue 1 (some dirtyBuf) 4).2.1 1 [2, 3] :=
  ⟨(q_remove_null_iff sampleQueue 1 [2, 3, 4] (some dirtyBuf) 4 (Or.inr (by decide))
      (Or.inr (by decide))).1,
    ((q_remove_null_iff sampleQueue 1 [2, 3, 4] (some dirtyBuf) 4 (Or.inr (by decide))
      (Or.inr (by decide))).2.2.2.2.1 2 [3, 4] (by decide) rfl).1,
    ((q_remove_null_iff sampleQueue 1 [2, 3, 4] (some dirtyBuf) 4 (Or.inr (by decide))
      (Or.inr (by decide))).2.2.2.2.1 2 [3, 4] (by decide) rfl).2.1,
    ((q_remove_null_iff sampleQueue 1 [2, 3, 4] (some dirtyBuf) 4 (Or.inr (by decide))
      (Or.inr (by decide))).2.2.2.2.2 [2, 3] 4 (by decide) rfl).1,
    ((q_remove_null_iff sampleQueue 1 [2, 3, 4] (some dirtyBuf) 4 (Or.inr (by decide))
      (Or.inr (by decide))).2.2.2.2.2 [2, 3] 4 (by decide) rfl).2.1⟩

/-! ## The copy into the output buffer -/

theorem sizePred_eq {bufsize : Nat} (h1 : 1 ≤ bufsize) (h2 : bufsize < 2 ^ SIZE_BITS) :
    sizePred bufsize = bufsize - 1 := by
  unfold sizePred
  have e : bufsize + 2 ^ SIZE_BITS - 1 = (bufsize - 1) + 2 ^ SIZE_BITS := by omega
  rw [e, Nat.add_mod_right, Nat.mod_eq_of_lt (by omega)]

theorem cstring_of_bytes (buf : Buf) :
    ∀ (l : Str) (o fuel : Nat), (∀ i (hi : i < l.length), buf (o + i) = l[i]) →
      (∀ b ∈ l, b ≠ 0) → buf (o + l.length) = 0 → l.length < fuel →
      cstring buf fuel o = some l := by
  intro l
  induction l with
  | nil =>
    intro o fuel _ _ hz hf
    obtain ⟨f, rfl⟩ : ∃ f, fuel = f + 1 := ⟨fuel - 1, by simp at hf; omega⟩
    simp only [List.length_nil, Nat.add_zero] at hz
    simp [cstring, hz]
  | cons x xs ih =>
    intro o fuel hb hnz hz hf
    obtain ⟨f, rfl⟩ : ∃ f, fuel = f + 1 := ⟨fuel - 1, by simp at hf; omega⟩
    have h0 : buf o = x := by simpa using hb 0 (by simp)
    have hx : x ≠ 0 := hnz x (by simp)
    have hrec := ih (o + 1) f
      (fun i hi => by
        have := hb (i + 1) (by simpa using hi)
        rw [show o + 1 + i = o + (i + 1) by omega]
        simpa using this)
      (fun b hbm => hnz b (List.mem_cons_of_mem _ hbm))
      (by
        rw [show o + 1 + xs.length = o + (x :: xs).length by simp; omega]
        exact hz)
      (by simp at hf; omega)
    simp [cstring, h0, hx, hrec]

/-- What the buffer holds after the truncating copy: read as a string it is
the value cut to `bufsize - 1` bytes, and the byte at `bufsize - 1` is NUL. -/
theorem copyOut_reads (buf : Buf) (v : Str) {bufsize : Nat} (h1 : 1 ≤ bufsize)
    (h2 : bufsize < 2 ^ SIZE_BITS) (hv : ∀ b ∈ v, b ≠ 0) :
    ∃ buf', copyOut (some buf) v bufsize = some buf' ∧
      cstring buf' bufsize 0 = some (v.take (bufsize - 1)) ∧ buf' (bufsize - 1) = 0 := by
  refine ⟨upd (strncpy buf v (bufsize - 1)) (bufsize - 1) 0, ?_, ?_, upd_same _ _ _⟩
  · simp [copyOut, sizePred_eq h1 h2]
  · apply cstring_of_bytes
    · intro i hi
      have hi' : i < bufsize - 1 ∧ i < v.length := by
        simpa [List.length_take] using hi
      rw [Nat.zero_add, upd_ne _ _ (Nat.ne_of_lt hi'.1)]
      simp only [strncpy, hi'.1, if_true, List.getElem_take]
      exact List.getD_eq_getElem v 0 hi'.2
    · intro b hb
      exact hv b (List.mem_of_mem_take hb)
    · rw [Nat.zero_add, List.length_take]
      by_cases hlt : v.length < bufsize - 1
      · rw [Nat.min_eq_right (by omega), upd_ne _ _ (Nat.ne_of_lt hlt)]
        simp only [strncpy, hlt, if_true]
        exact List.getD_eq_default v 0 (le_refl _)
      · rw [Nat.min_eq_left (by omega)]
        exact upd_same _ _ _
    · rw [List.length_take]
      omega

/-- C11: on a non-empty well-formed queue whose values are C strings (no NUL
byte inside), with an output buffer and `1 ≤ bufsize` in the range of
`size_t`, `q_remove_head` and `q_remove_tail` return the first (last) node and
leave a buffer that, read as a NUL-terminated string, is the first
`min (len s) (bufsize - 1)` bytes of the removed value `s`, with the byte at
`bufsize - 1` NUL; a longer value is cut and the node is returned all the same. -/
theorem q_remove_fills_buffer (h : Heap) (head : Ptr) (L : List Ptr) (hq : IsQueue h head L)
    (buf : Buf) (bufsize : Nat) (h1 : 1 ≤ bufsize) (h2 : bufsize < 2 ^ SIZE_BITS)
    (hs : ∀ x ∈ L, ∀ b ∈ h.value x, b ≠ 0) :
    (∀ a T, L = a :: T →
      ∃ buf', (q_remove_head h head (some buf) bufsize).1 = a ∧ a ≠ 0 ∧
        (q_remove_head h head (some buf) bufsize).2.2 = some buf' ∧
        cstring buf' bufsize 0 = some ((h.value a).take (bufsize - 1)) ∧
        ((h.value a).take (bufsize - 1)).length = min (h.value a).length (bufsize - 1) ∧
        buf' (bufsize - 1) = 0) ∧
    (∀ T a, L = T ++ [a] →
      ∃ buf', (q_remove_tail h head (some buf) bufsize).1 = a ∧ a ≠ 0 ∧
        (q_remove_tail h head (some buf) bufsize).2.2 = some buf' ∧
        cstring buf' bufsize 0 = some ((h.value a).take (bufsize - 1)) ∧
        ((h.value a).take (bufsize - 1)).length = min (h.value a).length (bufsize - 1) ∧
        buf' (bufsize - 1) = 0) := by
  refine ⟨?_, ?_⟩
  · intro a T hL
    subst hL
    obtain ⟨heq, ha0, _⟩ := q_remove_head_cons hq (some buf) bufsize
    obtain ⟨buf', e1, e2, e3⟩ := copyOut_reads buf (h.value a) h1 h2 (hs a (by simp))
    rw [heq]
    exact ⟨buf', rfl, ha0, e1, e2, by rw [List.length_take, Nat.min_comm], e3⟩
  · intro T a hL
    subst hL
    obtain ⟨heq, ha0, _⟩ := q_remove_tail_concat hq (some buf) bufsize
    obtain ⟨buf', e1, e2, e3⟩ := copyOut_reads buf (h.value a) h1 h2 (hs a (by simp))
    rw [heq]
    exact ⟨buf', rfl, ha0, e1, e2, by rw [List.length_take, Nat.min_comm], e3⟩

theorem q_remove_fills_buffer_witness :
    (∃ buf', (q_remove_head wordQueue 1 (some dirtyBuf) 4).1 = 2 ∧ (2 : Ptr) ≠ 0 ∧
      (q_remove_head wordQueue 1 (some dirtyBuf) 4).2.2 = some buf' ∧
      cstring buf' 4 0 = some ((wordQueue.value 2).take (4 - 1)) ∧
      ((wordQueue.value 2).take (4 - 1)).length = min (wordQueue.value 2).length (4 - 1) ∧
      buf' (4 - 1) = 0) ∧
    (wordQueue.value 2).take (4 - 1) = [104, 101, 108] ∧
    (∃ buf', (q_remove_tail wordQueue 1 (some dirtyBuf) 4).1 = 3 ∧ (3 : Ptr) ≠ 0 ∧
      (q_remove_tail wordQueue 1 (some dirtyBuf) 4).2.2 = some buf' ∧
      cstring buf' 4 0 = some ((wordQueue.value 3).take (4 - 1)) ∧
      ((wordQueue.value 3).take (4 - 1)).length = min (wordQueue.value 3).length (4 - 1) ∧
      buf' (4 - 1) = 0) ∧
    (wordQueue.value 3).take (4 - 1) = [104, 105] :=
  ⟨(q_remove_fills_buffer wordQueue 1 [2, 3] (by decide) dirtyBuf 4 (by decide) (by decide)
      (by decide)).1 2 [3] rfl,
    by decide,
    (q_remove_fills_buffer wordQueue 1 [2, 3] (by decide) dirtyBuf 4 (by decide) (by decide)
      (by decide)).2 [2] 3 rfl,
    by decide⟩

/-! ## Failing insertions -/

theorem malloc_free_fresh (h : Heap) {p : Ptr} (hf : p ∉ h.live) : (h.malloc p).free p = h := by
  cases h with
  | mk nx pv vl lv =>
    simp only [Heap.malloc, Heap.free, Heap.mk.injEq, true_and]
    simp only [List.filter_cons, ne_eq, not_true_eq_false, decide_False, Bool.false_eq_true,
      if_false]
    rw [List.filter_eq_self]
    intro a ha
    simp only [decide_eq_true_eq]
    exact fun e => hf (e ▸ ha)

/-- When `new_element` returns `NULL` the heap is what it was before the call,
provided `malloc` handed out `NULL` or a block that was not live. -/
theorem new_element_fail_heap (h : Heap) (s : Str) (p : Ptr) (dup : Bool)
    (hm : p = 0 ∨ p ∉ h.live) (hf : (new_element h s p dup).1 = 0) :
    (new_element h s p dup).2 = h := by
  unfold new_element at hf ⊢
  by_cases hp : p = 0
  · simp [hp]
  · cases dup with
    | false =>
      simp only [hp, if_false, if_true]
      exact malloc_free_fresh h (hm.resolve_left hp)
    | true => simp [hp] at hf

theorem q_insert_head_false_iff (h : Heap) (head : Ptr) (s : Str) (p : Ptr) (dup : Bool) :
    (q_insert_head h head s p dup).1 = false ↔ head = 0 ∨ p = 0 ∨ dup = false := by
  unfold q_insert_head new_element
  by_cases hh : head = 0
  · simp [hh]
  · by_cases hp : p = 0
    · simp [hh, hp]
    · cases dup <;> simp [hh, hp]

theorem q_insert_tail_false_iff (h : Heap) (head : Ptr) (s : Str) (p : Ptr) (dup : Bool) :
    (q_insert_tail h head s p dup).1 = false ↔ head = 0 ∨ p = 0 ∨ dup = false := by
  unfold q_insert_tail new_element
  by_cases hh : head = 0
  · simp [hh]
  · by_cases hp : p = 0
    · simp [hh, hp]
    · cases dup <;> simp [hh, hp]

theorem q_insert_head_false_heap (h : Heap) (head : Ptr) (s : Str) (p : Ptr) (dup : Bool)
    (hm : p = 0 ∨ p ∉ h.live) (hf : (q_insert_head h head s p dup).1 = false) :
    (q_insert_head h head s p dup).2 = h := by
  unfold q_insert_head at hf ⊢
  by_cases hh : head = 0
  · simp [hh]
  · by_cases hr : (new_element h s p dup).1 = 0
    · simp only [hh, hr, if_false, if_true]
      exact new_element_fail_heap h s p dup hm hr
    · simp [hh, hr] at hf

theorem q_insert_tail_false_heap (h : Heap) (head : Ptr) (s : Str) (p : Ptr) (dup : Bool)
    (hm : p = 0 ∨ p ∉ h.live) (hf : (q_insert_tail h head s p dup).1 = false) :
    (q_insert_tail h head s p dup).2 = h := by
  unfold q_insert_tail at hf ⊢
  by_cases hh : head = 0
  · simp [hh]
  · by_cases hr : (new_element h s p dup).1 = 0
    · simp only [hh, hr, if_false, if_true]
      exact new_element_fail_heap h s p dup hm hr
    · simp [hh, hr] at hf

/-- C12: `q_insert_head` and `q_insert_tail` return `false` exactly when the
queue is absent, `malloc` fails or `strdup` fails, and then the heap (links,
values, live blocks, hence the forward traversal) is what it was; when they
return `true` the queue is well-formed with the new node, holding the input
value, added at the front (respectively the back) and every other node keeps
its place and its value. -/
theorem q_insert_result (h : Heap) (head : Ptr) (L : List Ptr) (s : Str) (p : Ptr)
    (dup : Bool) (hq : head = 0 ∨ IsQueue h head L) (hm : p = 0 ∨ p ∉ h.live) :
    ((q_insert_head h head s p dup).1 = false ↔ head = 0 ∨ p = 0 ∨ dup = false) ∧
    ((q_insert_tail h head s p dup).1 = false ↔ head = 0 ∨ p = 0 ∨ dup = false) ∧
    ((q_insert_head h head s p dup).1 = false → (q_insert_head h head s p dup).2 = h) ∧
    ((q_insert_tail h head s p dup).1 = false → (q_insert_tail h head s p dup).2 = h) ∧
    ((q_insert_head h head s p dup).1 = true →
      IsQueue (q_insert_head h head s p dup).2 head (p :: L) ∧
      forward (q_insert_head h head s p dup).2 head (L.length + 2) = some (p :: L) ∧
      forward h head (L.length + 2) = some L ∧
      (q_insert_head h head s p dup).2.value p = s ∧
      ∀ x ∈ L, (q_insert_head h head s p dup).2.value x = h.value x) ∧
    ((q_insert_tail h head s p dup).1 = true →
      IsQueue (q_insert_tail h head s p dup).2 head (L ++ [p]) ∧
      forward (q_insert_tail h head s p dup).2 head (L.length + 2) = some (L ++ [p]) ∧
      forward h head (L.length + 2) = some L ∧
      (q_insert_tail h head s p dup).2.value p = s ∧
      ∀ x ∈ L, (q_insert_tail h head s p dup).2.value x = h.value x) := by
  refine ⟨q_insert_head_false_iff h head s p dup, q_insert_tail_false_iff h head s p dup,
    q_insert_head_false_heap h head s p dup hm, q_insert_tail_false_heap h head s p dup hm,
    ?_, ?_⟩
  · intro ht
    have hnf : ¬ (head = 0 ∨ p = 0 ∨ dup = false) := by
      rw [← q_insert_head_false_iff h head s p dup, ht]; simp
    simp only [not_or] at hnf
    obtain ⟨hh, hp0, hd⟩ := hnf
    have hdup : dup = true := by cases dup <;> simp_all
    subst hdup
    have hq' := hq.resolve_left hh
    have hfresh := hm.resolve_left hp0
    obtain ⟨heq, hq1⟩ := q_insert_head_ok hq' s hp0 hfresh
    rw [heq]
    refine ⟨hq1, hq1.forward_eq (by simp), hq'.forward_eq (by omega), ?_, ?_⟩
    · rw [list_add_value]; exact (value_after_insert h p s).1
    · intro x hx
      rw [list_add_value]
      exact (value_after_insert h p s).2 x
        (fun e => hfresh (e ▸ hq'.2.2.2.2.2 x (List.mem_cons_of_mem _ hx)))
  · intro ht
    have hnf : ¬ (head = 0 ∨ p = 0 ∨ dup = false) := by
      rw [← q_insert_tail_false_iff h head s p dup, ht]; simp
    simp only [not_or] at hnf
    obtain ⟨hh, hp0, hd⟩ := hnf
    have hdup : dup = true := by cases dup <;> simp_all
    subst hdup
    have hq' := hq.resolve_left hh
    have hfresh := hm.resolve_left hp0
    obtain ⟨heq, hq1⟩ := q_insert_tail_ok hq' s hp0 hfresh
    rw [heq]
    refine ⟨hq1, hq1.forward_eq (by simp), hq'.forward_eq (by omega), ?_, ?_⟩
    · rw [list_add_tail_value]; exact (value_after_insert h p s).1
    · intro x hx
      rw [list_add_tail_value]
      exact (value_after_insert h p s).2 x
        (fun e => hfresh (e ▸ hq'.2.2.2.2.2 x (List.mem_cons_of_mem _ hx)))

theorem q_insert_result_witness :
    (q_insert_head sampleQueue 1 [100] 5 false).2 = sampleQueue ∧
    (q_insert_tail sampleQueue 1 [100] 0 true).2 = sampleQueue ∧
    (IsQueue (q_insert_head sampleQueue 1 [100] 5 true).2 1 (5 :: [2, 3, 4]) ∧
      forward (q_insert_head sampleQueue 1 [100] 5 true).2 1 ([2, 3, 4].length + 2)
        = some (5 :: [2, 3, 4]) ∧
      forward sampleQueue 1 ([2, 3, 4].length + 2) = some [2, 3, 4] ∧
      (q_insert_head sampleQueue 1 [100] 5 true).2.value 5 = [100] ∧
      ∀ x ∈ [2, 3, 4], (q_insert_head sampleQueue 1 [100] 5 true).2.value x
        = sampleQueue.value x) ∧
    (IsQueue (q_insert_tail sampleQueue 1 [100] 5 true).2 1 ([2, 3, 4] ++ [5]) ∧
      forward (q_insert_tail sampleQueue 1 [100] 5 true).2 1 ([2, 3, 4].length + 2)
        = some ([2, 3, 4] ++ [5]) ∧
      forward sampleQueue 1 ([2, 3, 4].length + 2) = some [2, 3, 4] ∧
      (q_insert_tail sampleQueue 1 [100] 5 true).2.value 5 = [100] ∧
      ∀ x ∈ [2, 3, 4], (q_insert_tail sampleQueue 1 [100] 5 true).2.value x
        = sampleQueue.value x) :=
  ⟨(q_insert_result sampleQueue 1 [2, 3, 4] [100] 5 false (Or.inr (by decide))
      (Or.inr (by decide))).2.2.1 (by decide),
    (q_insert_result sampleQueue 1 [2, 3, 4] [100] 0 true (Or.inr (by decide))
      (Or.inl rfl)).2.2.2.1 (by decide),
    (q_insert_result sampleQueue 1 [2, 3, 4] [100] 5 true (Or.inr (by decide))
      (Or.inr (by decide))).2.2.2.2.1 (by decide),
    (q_insert_result sampleQueue 1 [2, 3, 4] [100] 5 true (Or.inr (by decide))
      (Or.inr (by decide))).2.2.2.2.2 (by decide)⟩

/-- C13: `q_delete_dup` only executes `return true`, so for the absent queue
(`NULL`) it returns `true` where `false` is documented and claimed. -/
theorem q_delete_dup_null_returns_true :
    (q_delete_dup emptyHeap 0).1 = true ∧ (q_delete_dup sampleQueue 0).1 = true ∧
    (q_delete_dup sampleQueue 0).2.next = sampleQueue.next := by
  exact ⟨rfl, rfl, rfl⟩

/-- C14: for a queue that is absent or well-formed, `q_delete_mid` (given fuel
for its loop) returns `false` exactly when the queue is absent or empty, and
then the heap is what it was; on a non-empty queue it returns `true` and
leaves a well-formed queue with exactly one payload node fewer. -/
theorem q_delete_mid_result (h : Heap) (head : Ptr) (L : List Ptr) (fuel : Nat)
    (hq : head = 0 ∨ IsQueue h head L) (hf : L.length ≤ fuel) :
    ∃ r, q_delete_mid h head fuel = some r ∧
      (r.1 = false ↔ head = 0 ∨ L = []) ∧
      (r.1 = false → r.2 = h) ∧
      (head ≠ 0 → L ≠ [] →
        r.1 = true ∧ ∃ L', IsQueue r.2 head L' ∧ L'.length + 1 = L.length ∧
          forward r.2 head L.length = some L' ∧ forward h head (L.length + 1) = some L) := by
  rcases hq with rfl | hq
  · refine ⟨_, q_delete_mid_null h fuel, by simp, fun _ => rfl, fun hne => absurd rfl hne⟩
  · cases L with
    | nil =>
      refine ⟨_, q_delete_mid_nil hq fuel, by simp, fun _ => rfl, fun _ hne => absurd rfl hne⟩
    | cons a T =>
      have hL : 0 < (a :: T).length := by simp
      obtain ⟨e1, e2⟩ := q_delete_mid_ok hq hL fuel (by omega)
      have hlen : ((a :: T).eraseIdx (((a :: T).length - 1) / 2)).length + 1
          = (a :: T).length := by
        rw [List.length_eraseIdx]
        have : ((a :: T).length - 1) / 2 < (a :: T).length := by omega
        simp only [this, if_true]
        omega
      refine ⟨_, e1, by simp [hq.1], by simp, fun _ _ => ⟨rfl, _, e2, hlen, ?_, ?_⟩⟩
      · exact e2.forward_eq (by omega)
      · exact hq.forward_eq (Nat.lt_succ_self _)

theorem q_delete_mid_result_witness :
    ∃ r, q_delete_mid sampleQueue 1 3 = some r ∧
      (r.1 = false ↔ (1 : Ptr) = 0 ∨ ([2, 3, 4] : List Ptr) = []) ∧
      (r.1 = false → r.2 = sampleQueue) ∧
      ((1 : Ptr) ≠ 0 → ([2, 3, 4] : List Ptr) ≠ [] →
        r.1 = true ∧ ∃ L', IsQueue r.2 1 L' ∧ L'.length + 1 = [2, 3, 4].length ∧
          forward r.2 1 [2, 3, 4].length = some L' ∧
          forward sampleQueue 1 ([2, 3, 4].length + 1) = some [2, 3, 4]) :=
  q_delete_mid_result sampleQueue 1 [2, 3, 4] 3 (Or.inr (by decide)) (by decide)

/-- C15: applying `q_reverse` twice to a well-formed queue leaves a
well-formed queue with the forward traversal it had (the body of `q_reverse`
is empty, so each application already leaves the heap as it was). -/
theorem q_reverse_twice (h : Heap) (head : Ptr) (L : List Ptr) (hq : IsQueue h head L) :
    IsQueue (q_reverse (q_reverse h head) head) head L ∧
    forward (q_reverse (q_reverse h head) head) head (L.length + 1) = some L ∧
    forward h head (L.length + 1) = some L := by
  exact ⟨hq, hq.forward_eq (Nat.lt_succ_self _), hq.forward_eq (Nat.lt_succ_self _)⟩

theorem q_reverse_twice_witness :
    IsQueue (q_reverse (q_reverse fourQueue 1) 1) 1 [2, 3, 4, 5] ∧
    forward (q_reverse (q_reverse fourQueue 1) 1) 1 ([2, 3, 4, 5].length + 1)
      = some [2, 3, 4, 5] ∧
    forward fourQueue 1 ([2, 3, 4, 5].length + 1) = some [2, 3, 4, 5] :=
  q_reverse_twice fourQueue 1 [2, 3, 4, 5] (by decide)

/-! ## What `q_swap` writes -/

theorem swapPairs_perm : ∀ (L : List Ptr), (swapPairs L).Perm L := by
  intro L
  induction L using swapPairs.induct with
  | case1 a b rest ih =>
    rw [swapPairs]
    exact (List.Perm.swap a b _).trans (List.Perm.cons a (List.Perm.cons b ih))
  | case2 l hl =>
    have : swapPairs l = l := by
      rw [swapPairs]
      intro a b rest e
      exact hl a b rest e
    rw [this]

theorem swapPairs_involutive : ∀ (L : List Ptr), swapPairs (swapPairs L) = L := by
  intro L
  induction L using swapPairs.induct with
  | case1 a b rest ih => simp [swapPairs, ih]
  | case2 l hl =>
    have : swapPairs l = l := by
      rw [swapPairs]
      intro a b rest e
      exact hl a b rest e
    rw [this, this]

/-- The loop body stores only into link fields of the sentinel and of payload
nodes. -/
theorem q_swap_body_frame {h : Heap} {head a b : Ptr} {P R : List Ptr}
    (hq : IsQueue h head (P ++ a :: b :: R)) {x : Ptr} (hx : x ∉ head :: (P ++ a :: b :: R)) :
    (q_swap_body h a b).next x = h.next x ∧ (q_swap_body h a b).prev x = h.prev x := by
  obtain ⟨hnx, hpv, _, _⟩ := q_swap_body_fields hq
  have hxa : x ≠ a := fun e => hx (by simp [e])
  have hxb : x ≠ b := fun e => hx (by simp [e])
  have hxe : x ≠ lastOf head P := by
    intro e
    have := lastOf_mem P head
    rw [← e] at this
    apply hx
    simp only [List.mem_cons, List.mem_append] at this ⊢
    tauto
  have hxc : x ≠ firstOf R head := by
    intro e
    have := firstOf_mem R head
    rw [← e] at this
    apply hx
    simp only [List.mem_cons, List.mem_append] at this ⊢
    tauto
  refine ⟨?_, ?_⟩
  · rw [hnx, upd_ne _ _ hxb, upd_ne _ _ hxa, upd_ne _ _ hxe]
  · rw [hpv, upd_ne _ _ hxa, upd_ne _ _ hxb, upd_ne _ _ hxc]

theorem q_swap_loop_frame (head : Ptr) :
    ∀ (n : Nat) (R P : List Ptr) (h : Heap) (fuel : Nat) (h' : Heap), R.length ≤ n →
      IsQueue h head (P ++ R) →
      q_swap_loop head fuel h (firstOf R head) (h.next (firstOf R head)) = some h' →
      ∀ x, x ∉ head :: (P ++ R) → h'.next x = h.next x ∧ h'.prev x = h.prev x := by
  intro n
  induction n using Nat.strong_induction_on with
  | _ n ih =>
    intro R P h fuel h' hn hq hrun x hx
    cases fuel with
    | zero => simp [q_swap_loop] at hrun
    | succ f =>
      match R, hn, hq, hrun, hx with
      | [], _, _, hrun, _ =>
        simp only [q_swap_loop, firstOf, ne_eq, not_true_eq_false, false_and, if_false,
          Option.some.injEq] at hrun
        subst hrun
        exact ⟨rfl, rfl⟩
      | [a], _, hq, hrun, _ =>
        have hna : h.next a = head := by simpa [firstOf] using hq.next_eq
        simp only [q_swap_loop, firstOf, hna, ne_eq, not_true_eq_false, and_false, if_false,
          Option.some.injEq] at hrun
        subst hrun
        exact ⟨rfl, rfl⟩
      | a :: b :: R', hn, hq, hrun, hx =>
        have hnab : h.next a = b := by simpa [firstOf] using hq.next_eq
        have hah : a ≠ head := fun e => (List.nodup_cons.1 hq.2.2.1).1 (by simp [e])
        have hbh : b ≠ head := fun e => (List.nodup_cons.1 hq.2.2.1).1 (by simp [e])
        obtain ⟨hq1, hna1⟩ := hq.swap_body
        have hq1' : IsQueue (q_swap_body h a b) head ((P ++ [b, a]) ++ R') := by
          simpa using hq1
        simp only [q_swap_loop, firstOf, hnab, hah, hbh, ne_eq, not_false_eq_true, and_self,
          if_true, hna1] at hrun
        simp only [List.length_cons] at hn
        have hx' : x ∉ head :: ((P ++ [b, a]) ++ R') := by
          intro hm
          apply hx
          simp only [List.mem_cons, List.mem_append, List.not_mem_nil, or_false] at hm ⊢
          tauto
        have hrec := ih (n - 2) (by omega) R' (P ++ [b, a]) (q_swap_body h a b) f h'
          (by omega) hq1' hrun x hx'
        have hbody := q_swap_body_frame hq hx
        exact ⟨hrec.1.trans hbody.1, hrec.2.trans hbody.2⟩

theorem q_swap_frame {h : Heap} {head : Ptr} {L : List Ptr} (hq : IsQueue h head L)
    {fuel : Nat} {h' : Heap} (hrun : q_swap h head fuel = some h') :
    ∀ x, x ∉ head :: L → h'.next x = h.next x ∧ h'.prev x = h.prev x := by
  intro x hx
  unfold q_swap at hrun
  by_cases hg : head = 0 ∨ h.next head = h.prev head
  · simp only [hg, if_true, Option.some.injEq] at hrun
    subst hrun
    exact ⟨rfl, rfl⟩
  · simp only [hg, if_false] at hrun
    rw [hq.next_head] at hrun
    exact q_swap_loop_frame head L.length L [] h fuel h' (le_refl _) (by simpa using hq)
      hrun x (by simpa using hx)

theorem Path.agree {f g : Ptr → Ptr} {c : Ptr} :
    ∀ (X : List Ptr) (a : Ptr), Path f a X c → Path g a X c → ∀ x ∈ a :: X, g x = f x := by
  intro X
  induction X with
  | nil =>
    intro a hf hg x hx
    simp only [Path] at hf hg
    simp only [List.mem_singleton] at hx
    rw [hx, hf, hg]
  | cons y ys ih =>
    intro a hf hg x hx
    simp only [Path] at hf hg
    rcases List.mem_cons.1 hx with rfl | hx
    · rw [hf.1, hg.1]
    · exact ih y hf.2 hg.2 x hx

/-- Two heaps holding the same queue have the same links on its nodes. -/
theorem IsQueue.links_agree {h h' : Heap} {head : Ptr} {L : List Ptr} (hq : IsQueue h head L)
    (hq' : IsQueue h' head L) :
    ∀ x ∈ head :: L, h'.next x = h.next x ∧ h'.prev x = h.prev x := by
  intro x hx
  refine ⟨Path.agree L head hq.2.2.2.1 hq'.2.2.2.1 x hx,
    Path.agree L.reverse head hq.2.2.2.2.1 hq'.2.2.2.2.1 x ?_⟩
  simpa using hx

/-- C16: on a well-formed queue `q_swap` (given fuel for its loop) returns a
well-formed queue on the same payload nodes (the new traversal is a
permutation of the old one), every value and the set of live blocks are as
before, and no link field outside the sentinel and the payload nodes changes. -/
theorem q_swap_relinks_only (h : Heap) (head : Ptr) (L : List Ptr) (hq : IsQueue h head L)
    (fuel : Nat) (hf : L.length ≤ fuel) :
    ∃ h', q_swap h head fuel = some h' ∧
      (∃ L', IsQueue h' head L' ∧ forward h' head (L.length + 1) = some L' ∧
        L'.Perm L ∧ ∀ x, x ∈ L' ↔ x ∈ L) ∧
      h'.value = h.value ∧ h'.live = h.live ∧
      ∀ x, x ∉ head :: L → h'.next x = h.next x ∧ h'.prev x = h.prev x := by
  obtain ⟨h', e1, e2, e3, e4⟩ := q_swap_ok hq fuel (by omega)
  refine ⟨h', e1, ⟨swapPairs L, e2, e2.forward_eq ?_, swapPairs_perm L,
    fun x => (swapPairs_perm L).mem_iff⟩, e3, e4, q_swap_frame hq e1⟩
  rw [swapPairs_length]
  exact Nat.lt_succ_self _

theorem q_swap_relinks_only_witness :
    ∃ h', q_swap fiveQueue 1 5 = some h' ∧
      (∃ L', IsQueue h' 1 L' ∧ forward h' 1 ([2, 3, 4, 5, 6].length + 1) = some L' ∧
        L'.Perm [2, 3, 4, 5, 6] ∧ ∀ x, x ∈ L' ↔ x ∈ [2, 3, 4, 5, 6]) ∧
      h'.value = fiveQueue.value ∧ h'.live = fiveQueue.live ∧
      ∀ x, x ∉ 1 :: [2, 3, 4, 5, 6] →
        h'.next x = fiveQueue.next x ∧ h'.prev x = fiveQueue.prev x :=
  q_swap_relinks_only fiveQueue 1 [2, 3, 4, 5, 6] (by decide) 5 (by decide)

/-- C19: applying `q_swap` twice to a well-formed queue (given fuel for the
loop) restores the forward traversal, node for node, and every `next` and
`prev` link; the heap is again the one before the two calls. -/
theorem q_swap_twice (h : Heap) (head : Ptr) (L : List Ptr) (hq : IsQueue h head L)
    (fuel : Nat) (hf : L.length ≤ fuel) :
    ∃ h1 h2, q_swap h head fuel = some h1 ∧ q_swap h1 head fuel = some h2 ∧
      IsQueue h2 head L ∧ forward h2 head (L.length + 1) = some L ∧
      forward h head (L.length + 1) = some L ∧
      h2.next = h.next ∧ h2.prev = h.prev ∧ h2 = h := by
  obtain ⟨h1, a1, a2, a3, a4⟩ := q_swap_ok hq fuel (by omega)
  obtain ⟨h2, b1, b2, b3, b4⟩ := q_swap_ok a2 fuel (by rw [swapPairs_length]; omega)
  rw [swapPairs_involutive] at b2
  have hfr1 := q_swap_frame hq a1
  have hfr2 := q_swap_frame a2 b1
  have hlinks : ∀ x, h2.next x = h.next x ∧ h2.prev x = h.prev x := by
    intro x
    by_cases hx : x ∈ head :: L
    · exact hq.links_agree b2 x hx
    · have hx' : x ∉ head :: swapPairs L := by
        intro hm
        apply hx
        rcases List.mem_cons.1 hm with e | hm
        · simp [e]
        · exact List.mem_cons_of_mem _ ((swapPairs_perm L).mem_iff.1 hm)
      exact ⟨(hfr2 x hx').1.trans (hfr1 x hx).1, (hfr2 x hx').2.trans (hfr1 x hx).2⟩
  have hn : h2.next = h.next := funext fun x => (hlinks x).1
  have hp : h2.prev = h.prev := funext fun x => (hlinks x).2
  refine ⟨h1, h2, a1, b1, b2, b2.forward_eq (Nat.lt_succ_self _),
    hq.forward_eq (Nat.lt_succ_self _), hn, hp, ?_⟩
  cases h with
  | mk nx pv vl lv =>
    cases h2 with
    | mk nx2 pv2 vl2 lv2 =>
      simp only [Heap.mk.injEq]
      exact ⟨hn, hp, b3.trans a3, b4.trans a4⟩

theorem q_swap_twice_witness :
    ∃ h1 h2, q_swap fiveQueue 1 5 = some h1 ∧ q_swap h1 1 5 = some h2 ∧
      IsQueue h2 1 [2, 3, 4, 5, 6] ∧ forward h2 1 ([2, 3, 4, 5, 6].length + 1)
        = some [2, 3, 4, 5, 6] ∧
      forward fiveQueue 1 ([2, 3, 4, 5, 6].length + 1) = some [2, 3, 4, 5, 6] ∧
      h2.next = fiveQueue.next ∧ h2.prev = fiveQueue.prev ∧ h2 = fiveQueue :=
  q_swap_twice fiveQueue 1 [2, 3, 4, 5, 6] (by decide) 5 (by decide)

/-! ## The two-pointer scan of `q_delete_mid`, step by step -/

theorem nth_getElem? (c : Ptr) : ∀ (L : List Ptr) (i : Nat), i < L.length →
    L[i]? = some (nth L i c) := by
  intro L
  induction L with
  | nil => intro i hi; simp at hi
  | cons x xs ih =>
    intro i hi
    cases i with
    | zero => simp [nth]
    | succ i => simpa [nth] using ih i (by simpa using hi)

theorem q_delete_mid_states_ne_nil (h : Heap) :
    ∀ (fuel : Nat) (ptr prev : Ptr) (l : List (Ptr × Ptr)),
      q_delete_mid_states h fuel ptr prev = some l → l ≠ [] := by
  intro fuel
  induction fuel with
  | zero => intro ptr prev l hl; simp [q_delete_mid_states] at hl
  | succ f _ =>
    intro ptr prev l hl
    simp only [q_delete_mid_states] at hl
    split at hl
    · cases hs : q_delete_mid_states h f (h.next ptr) (h.prev prev) with
      | none => simp [hs] at hl
      | some l' =>
        simp only [hs, Option.map_some', Option.some.injEq] at hl
        rw [← hl]; simp
    · simp only [Option.some.injEq] at hl
      rw [← hl]; simp

/-- The pointer the loop returns is the forward pointer of the last state. -/
theorem q_delete_mid_loop_eq_states (h : Heap) :
    ∀ (fuel : Nat) (ptr prev : Ptr),
      q_delete_mid_loop h fuel ptr prev
        = (q_delete_mid_states h fuel ptr prev).bind
            (fun l => l.getLast?.map (fun st => st.1)) := by
  intro fuel
  induction fuel with
  | zero => intro ptr prev; simp [q_delete_mid_loop, q_delete_mid_states]
  | succ f ih =>
    intro ptr prev
    simp only [q_delete_mid_loop, q_delete_mid_states]
    split
    · rw [ih]
      cases hs : q_delete_mid_states h f (h.next ptr) (h.prev prev) with
      | none => simp
      | some l =>
        have hne := q_delete_mid_states_ne_nil h f _ _ l hs
        cases l with
        | nil => exact absurd rfl hne
        | cons y ys => simp [List.getLast?_cons_cons]
    · simp

theorem q_delete_mid_states_eq {h : Heap} {head : Ptr} {L : List Ptr} (hq : IsQueue h head L)
    (hL : 0 < L.length) :
    ∀ (d k fuel : Nat), k + d = (L.length - 1) / 2 → d < fuel →
      q_delete_mid_states h fuel (nth L k head) (nth L (L.length - 1 - k) head)
        = some ((List.range' k (d + 1)).map
            (fun j => (nth L j head, nth L (L.length - 1 - j) head))) := by
  have hnd : L.Nodup := (List.nodup_cons.1 hq.2.2.1).2
  intro d
  induction d with
  | zero =>
    intro k fuel hk hf
    obtain ⟨f, rfl⟩ : ∃ f, fuel = f + 1 := ⟨fuel - 1, by omega⟩
    simp only [Nat.add_zero] at hk
    subst hk
    have hcase : L.length - 1 - (L.length - 1) / 2 = (L.length - 1) / 2 ∨
        L.length - 1 - (L.length - 1) / 2 = (L.length - 1) / 2 + 1 := by omega
    rcases hcase with e | e
    · simp [q_delete_mid_states, e, List.range']
    · have hn := hq.next_nth (i := (L.length - 1) / 2) (by omega)
      simp [q_delete_mid_states, e, hn, List.range']
  | succ d ih =>
    intro k fuel hk hf
    obtain ⟨f, rfl⟩ : ∃ f, fuel = f + 1 := ⟨fuel - 1, by omega⟩
    have hk1 : k < L.length := by omega
    have hk2 : L.length - 1 - k < L.length := by omega
    have hn := hq.next_nth (i := k) hk1
    have h1 : nth L (L.length - 1 - k) head ≠ nth L k head := by
      intro e
      have := nth_inj head L hnd _ _ hk2 hk1 e
      omega
    have h2 : nth L (L.length - 1 - k) head ≠ nth L (k + 1) head := by
      intro e
      have := nth_inj head L hnd _ _ hk2 (by omega) e
      omega
    have hp : h.prev (nth L (L.length - 1 - k) head) = nth L (L.length - 1 - (k + 1)) head := by
      have := hq.prev_nth (i := L.length - 1 - (k + 1)) (by omega)
      have e : L.length - 1 - (k + 1) + 1 = L.length - 1 - k := by omega
      rw [e] at this
      exact this
    have hrec := ih (k + 1) f (by omega) (by omega)
    rw [List.range'_succ]
    simp only [q_delete_mid_states, hn, h1, h2, ne_eq, not_false_eq_true, and_self, if_true,
      hp, hrec, Option.map_some', List.map_cons]

theorem q_delete_mid_states_none {h : Heap} {head : Ptr} {L : List Ptr}
    (hq : IsQueue h head L) (hL : 0 < L.length) :
    ∀ (fuel k : Nat), k + fuel ≤ (L.length - 1) / 2 →
      q_delete_mid_states h fuel (nth L k head) (nth L (L.length - 1 - k) head) = none := by
  have hnd : L.Nodup := (List.nodup_cons.1 hq.2.2.1).2
  intro fuel
  induction fuel with
  | zero => intro k _; simp [q_delete_mid_states]
  | succ f ih =>
    intro k hk
    have hk1 : k < L.length := by omega
    have hk2 : L.length - 1 - k < L.length := by omega
    have hn := hq.next_nth (i := k) hk1
    have h1 : nth L (L.length - 1 - k) head ≠ nth L k head := by
      intro e
      have := nth_inj head L hnd _ _ hk2 hk1 e
      omega
    have h2 : nth L (L.length - 1 - k) head ≠ nth L (k + 1) head := by
      intro e
      have := nth_inj head L hnd _ _ hk2 (by omega) e
      omega
    have hp : h.prev (nth L (L.length - 1 - k) head) = nth L (L.length - 1 - (k + 1)) head := by
      have := hq.prev_nth (i := L.length - 1 - (k + 1)) (by omega)
      have e : L.length - 1 - (k + 1) + 1 = L.length - 1 - k := by omega
      rw [e] at this
      exact this
    have hrec := ih (k + 1) (by omega)
    simp only [q_delete_mid_states, hn, h1, h2, ne_eq, not_false_eq_true, and_self, if_true,
      hp, hrec, Option.map_none']

/-- C17: on a well-formed queue of `n ≥ 1` payload nodes the scan of
`q_delete_mid` stops on the node at zero-based index `(n - 1) / 2` of the
forward traversal, and that is the node `q_delete_mid` unlinks and frees; the
index is `n / 2 - 1` for even `n`, so the third member of six. -/
theorem q_delete_mid_target (h : Heap) (head : Ptr) (L : List Ptr) (hq : IsQueue h head L)
    (hL : 0 < L.length) (fuel : Nat) (hf : L.length ≤ fuel) :
    ∃ m, L[(L.length - 1) / 2]? = some m ∧
      q_delete_mid_loop h fuel (h.next head) (h.prev head) = some m ∧
      q_delete_mid h head fuel = some (true, q_release_element (list_del h m) m) ∧
      m ≠ head ∧ m ∉ L.eraseIdx ((L.length - 1) / 2) ∧
      m ∉ (q_release_element (list_del h m) m).live ∧
      (L.length % 2 = 0 → (L.length - 1) / 2 = L.length / 2 - 1) ∧
      (L.length % 2 = 1 → (L.length - 1) / 2 = L.length / 2) ∧
      (L.length = 6 → (L.length - 1) / 2 = 2) := by
  have hk : (L.length - 1) / 2 < L.length := by omega
  have hloop := q_delete_mid_loop_eq hq hL ((L.length - 1) / 2) 0 fuel (by omega) (by omega)
  simp only [Nat.sub_zero] at hloop
  rw [← hq.next_head_nth, ← hq.prev_head_nth hL] at hloop
  obtain ⟨e1, _⟩ := q_delete_mid_ok hq hL fuel (by omega)
  refine ⟨nth L ((L.length - 1) / 2) head, nth_getElem? head L _ hk, hloop, e1,
    hq.nth_ne_head hk, ?_, ?_, by omega, by omega, by omega⟩
  · have hs := nth_split head L _ hk
    have hnd := hq.2.2.1
    rw [hs] at hnd
    rw [List.eraseIdx_eq_take_drop_succ]
    exact fun hm => not_mem_of_nodup_split hnd (List.mem_cons_of_mem _ hm)
  · simp [q_release_element, Heap.free]

theorem q_delete_mid_target_witness :
    ∃ m, [2, 3, 4, 5, 6, 7][([2, 3, 4, 5, 6, 7].length - 1) / 2]? = some m ∧
      q_delete_mid_loop sixQueue 6 (sixQueue.next 1) (sixQueue.prev 1) = some m ∧
      q_delete_mid sixQueue 1 6 = some (true, q_release_element (list_del sixQueue m) m) ∧
      m ≠ 1 ∧ m ∉ [2, 3, 4, 5, 6, 7].eraseIdx (([2, 3, 4, 5, 6, 7].length - 1) / 2) ∧
      m ∉ (q_release_element (list_del sixQueue m) m).live ∧
      ([2, 3, 4, 5, 6, 7].length % 2 = 0 →
        ([2, 3, 4, 5, 6, 7].length - 1) / 2 = [2, 3, 4, 5, 6, 7].length / 2 - 1) ∧
      ([2, 3, 4, 5, 6, 7].length % 2 = 1 →
        ([2, 3, 4, 5, 6, 7].length - 1) / 2 = [2, 3, 4, 5, 6, 7].length / 2) ∧
      ([2, 3, 4, 5, 6, 7].length = 6 → ([2, 3, 4, 5, 6, 7].length - 1) / 2 = 2) :=
  q_delete_mid_target sixQueue 1 [2, 3, 4, 5, 6, 7] (by decide) (by decide) 6 (by decide)

/-- C18: on a well-formed queue of `n ≥ 1` payload nodes the loop of
`q_delete_mid` tests its condition on the pairs `(L[j], L[n-1-j])` for
`j = 0, ..., (n-1)/2` and stops there: it runs exactly `(n-1)/2` iterations
(less fuel does not suffice), both pointers stay on payload nodes with the
forward one never past the backward one, they end equal for odd `n` and
adjacent for even `n`, and the pointer handed to `list_del` is a payload node,
not the sentinel. -/
theorem q_delete_mid_loop_terminates (h : Heap) (head : Ptr) (L : List Ptr)
    (hq : IsQueue h head L) (hL : 0 < L.length) :
    (∀ fuel, (L.length - 1) / 2 < fuel →
      q_delete_mid_states h fuel (h.next head) (h.prev head)
        = some ((List.range ((L.length - 1) / 2 + 1)).map
            (fun j => (nth L j head, nth L (L.length - 1 - j) head))) ∧
      q_delete_mid_loop h fuel (h.next head) (h.prev head)
        = some (nth L ((L.length - 1) / 2) head)) ∧
    (∀ fuel, fuel ≤ (L.length - 1) / 2 →
      q_delete_mid_states h fuel (h.next head) (h.prev head) = none) ∧
    (∀ fuel, q_delete_mid_loop h fuel (h.next head) (h.prev head)
      = (q_delete_mid_states h fuel (h.next head) (h.prev head)).bind
          (fun l => l.getLast?.map (fun st => st.1))) ∧
    ((List.range ((L.length - 1) / 2 + 1)).map
      (fun j => (nth L j head, nth L (L.length - 1 - j) head))).length
        = (L.length - 1) / 2 + 1 ∧
    (∀ j, j ≤ (L.length - 1) / 2 →
      j ≤ L.length - 1 - j ∧ L.length - 1 - j < L.length ∧
      L[j]? = some (nth L j head) ∧
      L[L.length - 1 - j]? = some (nth L (L.length - 1 - j) head) ∧
      nth L j head ≠ head ∧ nth L (L.length - 1 - j) head ≠ head) ∧
    (L.length % 2 = 1 →
      nth L (L.length - 1 - (L.length - 1) / 2) head = nth L ((L.length - 1) / 2) head) ∧
    (L.length % 2 = 0 →
      nth L (L.length - 1 - (L.length - 1) / 2) head
        = h.next (nth L ((L.length - 1) / 2) head)) ∧
    nth L ((L.length - 1) / 2) head ∈ L ∧ nth L ((L.length - 1) / 2) head ≠ head := by
  have hk : (L.length - 1) / 2 < L.length := by omega
  refine ⟨?_, ?_, fun fuel => q_delete_mid_loop_eq_states h fuel _ _, by simp, ?_, ?_, ?_,
    nth_mem head L _ hk, hq.nth_ne_head hk⟩
  · intro fuel hf
    have hst := q_delete_mid_states_eq hq hL ((L.length - 1) / 2) 0 fuel (by omega) hf
    have hlp := q_delete_mid_loop_eq hq hL ((L.length - 1) / 2) 0 fuel (by omega) hf
    simp only [Nat.sub_zero] at hst hlp
    rw [← hq.next_head_nth, ← hq.prev_head_nth hL] at hst hlp
    rw [List.range_eq_range']
    exact ⟨hst, hlp⟩
  · intro fuel hf
    have hst := q_delete_mid_states_none hq hL fuel 0 (by omega)
    simp only [Nat.sub_zero] at hst
    rw [← hq.next_head_nth, ← hq.prev_head_nth hL] at hst
    exact hst
  · intro j hj
    have h1 : j < L.length := by omega
    have h2 : L.length - 1 - j < L.length := by omega
    exact ⟨by omega, h2, nth_getElem? head L j h1, nth_getElem? head L _ h2,
      hq.nth_ne_head h1, hq.nth_ne_head h2⟩
  · intro hodd
    have e : L.length - 1 - (L.length - 1) / 2 = (L.length - 1) / 2 := by omega
    rw [e]
  · intro heven
    have e : L.length - 1 - (L.length - 1) / 2 = (L.length - 1) / 2 + 1 := by omega
    rw [e, hq.next_nth hk]

theorem q_delete_mid_loop_terminates_witness :
    (q_delete_mid_states sixQueue 3 (sixQueue.next 1) (sixQueue.prev 1)
        = some ((List.range (([2, 3, 4, 5, 6, 7].length - 1) / 2 + 1)).map
            (fun j => (nth [2, 3, 4, 5, 6, 7] j 1,
              nth [2, 3, 4, 5, 6, 7] ([2, 3, 4, 5, 6, 7].length - 1 - j) 1))) ∧
      q_delete_mid_loop sixQueue 3 (sixQueue.next 1) (sixQueue.prev 1)
        = some (nth [2, 3, 4, 5, 6, 7] (([2, 3, 4, 5, 6, 7].length - 1) / 2) 1)) ∧
    q_delete_mid_states sixQueue 2 (sixQueue.next 1) (sixQueue.prev 1) = none ∧
    (List.range (([2, 3, 4, 5, 6, 7].length - 1) / 2 + 1)).map
      (fun j => (nth [2, 3, 4, 5, 6, 7] j 1,
        nth [2, 3, 4, 5, 6, 7] ([2, 3, 4, 5, 6, 7].length - 1 - j) 1))
      = [(2, 7), (3, 6), (4, 5)] ∧
    nth [2, 3, 4, 5, 6, 7] ([2, 3, 4, 5, 6, 7].length - 1 - ([2, 3, 4, 5, 6, 7].length - 1) / 2) 1
      = sixQueue.next (nth [2, 3, 4, 5, 6, 7] (([2, 3, 4, 5, 6, 7].length - 1) / 2) 1) :=
  ⟨(q_delete_mid_loop_terminates sixQueue 1 [2, 3, 4, 5, 6, 7] (by decide) (by decide)).1 3
      (by decide),
    (q_delete_mid_loop_terminates sixQueue 1 [2, 3, 4, 5, 6, 7] (by decide) (by decide)).2.1 2
      (by decide),
    by decide,
    (q_delete_mid_loop_terminates sixQueue 1 [2, 3, 4, 5, 6, 7] (by decide)
      (by decide)).2.2.2.2.2.2.1 (by decide)⟩

end Queue
